import Mathlib

/-!
Verification of the paginated BFS graph-exploration engine
(`engine_bfs.py`, `session_store.py`, `token_budget.py`, `traverse_wrapper.py`,
`format_flat.py`, `graph_functions.py`).

The Python sources are shallowly embedded: pure functions become Lean
functions, the in-place mutation of the traversal session becomes explicit
state passing, Python machine integers become `Nat`/`Int`, byte strings
become `List Nat` with values below 256, and fallible operations return
`Option`/`Except`.  Timestamps (`time.time()`, `datetime`) are modelled as
natural-number instants.  The token estimator is environment dependent
(`tiktoken` may or may not be importable), so the traversal engine is
parameterised by the estimator function `est`, exactly as the spec treats
the tokenizer as a replaceable collaborator; the non-tiktoken fallback is
embedded separately from `token_budget.py`.
-/

set_option maxRecDepth 10000
set_option maxHeartbeats 400000000

/-- Python dict assignment `d[k] = v` on an association list: the value is
replaced in place when the key is present, otherwise the pair is appended
(Python dicts preserve insertion order). -/
def dictUpdate {α β : Type} [DecidableEq α] : List (α × β) → α → β → List (α × β)
  | [], k, v => [(k, v)]
  | (k0, v0) :: rest, k, v =>
    if k0 = k then (k, v) :: rest else (k0, v0) :: dictUpdate rest k v

/-- Python dict lookup `d.get(k)` on an association list. -/
def dictGet {α β : Type} [DecidableEq α] : List (α × β) → α → Option β
  | [], _ => none
  | (k0, v0) :: rest, k => if k0 = k then some v0 else dictGet rest k

/-- Python dict `d.pop(k, None)` restricted to its effect on the mapping:
removes the binding of `k` when present. -/
def dictRemove {α β : Type} [DecidableEq α] : List (α × β) → α → List (α × β)
  | [], _ => []
  | (k0, v0) :: rest, k => if k0 = k then rest else (k0, v0) :: dictRemove rest k

/-- A store edge as consumed by the engine (`graphiti_core.edges.EntityEdge`):
relation type is the `name` field, `created_at` is a required timestamp,
`valid_at`/`invalid_at` may be absent. -/
structure EntityEdge where
  uuid : String
  name : String
  fact : String
  source_node_uuid : String
  target_node_uuid : String
  episodes : List String
  created_at : Nat
  valid_at : Option Nat
  invalid_at : Option Nat
deriving DecidableEq

/-- A store node as consumed by the engine (`graphiti_core.nodes.EntityNode`).
The attribute bag is modelled as a string-keyed association list. -/
structure EntityNode where
  uuid : String
  name : String
  summary : String
  labels : List String
  group_id : String
  created_at : Option Nat
  attributes : List (String × String)
deriving DecidableEq

/-- Wire record produced by `format_node_flat` (`format_flat.py`):
uuid, name, summary, labels, group_id, created_at (isoformat of the
timestamp, modelled by the instant itself), attributes. -/
structure NodeFlat where
  uuid : String
  name : String
  summary : String
  labels : List String
  group_id : String
  created_at : Option Nat
  attributes : List (String × String)
deriving DecidableEq

/-- `format_flat.format_node_flat`. -/
def format_node_flat (n : EntityNode) : NodeFlat :=
  { uuid := n.uuid, name := n.name, summary := n.summary, labels := n.labels,
    group_id := n.group_id, created_at := n.created_at, attributes := n.attributes }

/-- Wire record produced by `format_edge_flat` (`format_flat.py`). -/
structure EdgeFlat where
  id : String
  type : String
  fact : String
  source : String
  target : String
  episodes : List String
  created_at : Nat
  valid_at : Option Nat
  invalid_at : Option Nat
  depth : Int
  order : Nat
deriving DecidableEq

/-- `format_flat.format_edge_flat`; when no `edge_id` is passed the composite
id without an ordinal is generated. -/
def format_edge_flat (e : EntityEdge) (depth : Int) (order : Nat)
    (edge_id : Option String) : EdgeFlat :=
  { id := edge_id.getD ("E:" ++ e.source_node_uuid ++ ":" ++ e.target_node_uuid),
    type := e.name, fact := e.fact, source := e.source_node_uuid,
    target := e.target_node_uuid, episodes := e.episodes,
    created_at := e.created_at, valid_at := e.valid_at,
    invalid_at := e.invalid_at, depth := depth, order := order }

/-- A node entry of the page: either a flattened node, or the
`{"uuid": u, "error": "Node not found"}` record the engine synthesises
when the store fetch returns nothing. -/
inductive NodeRec where
  | ok (n : NodeFlat)
  | missing (uuid : String)
deriving DecidableEq

/-- The `result` dict built by `advance_bfs`: `start` is present on the real
result and absent on the `temp_result` used for the budget check (which the
source builds with only `nodes` and `edges`). -/
structure Page where
  start : Option String
  nodes : List (String × NodeRec)
  edges : List EdgeFlat
deriving DecidableEq

/-- `session_store.Frame`. -/
structure Frame where
  node_uuid : String
  depth_remaining : Nat
  next_edge_index : Nat
deriving DecidableEq

/-- `session_store.TraverseSession`. -/
structure TraverseSession where
  root_uuid : String
  max_depth : Nat
  strategy : String := "bfs"
  edge_ordering : String := "uuid"
  query_hash : String := ""
  snapshot_as_of : Option String := none
  frontier : List Frame := []
  visited : List String := []
  yielded_edges : Nat := 0
  started_at : Nat := 0
  expires_at : Nat := 0
  schema_version : Nat := 1
deriving DecidableEq

/-- The store collaborator demanded by the engine: `get_node_by_uuid`
(nothing on a missing node) and `EntityEdge.get_by_node_uuid`.  The source
wraps the edge fetch in try/except and replaces a store error by the empty
list, so `getEdges` already denotes that post-error adjacency list. -/
structure GraphStore where
  getNode : String → Option EntityNode
  getEdges : String → List EntityEdge

/-- The secondary sort key shared by every `EDGE_ORDER` mode:
`getattr(e, "target_node_uuid", None) or getattr(e, "source_node_uuid", None)`,
i.e. the target uuid, falling back to the source uuid only when the target
is falsy (empty). -/
def edgeUuidKey (e : EntityEdge) : String :=
  if e.target_node_uuid = "" then e.source_node_uuid else e.target_node_uuid

/-- Sort key of `EDGE_ORDER["uuid"]`: the pair `(e.name, edgeUuidKey e)`
compared lexicographically, as Python compares key tuples. -/
def edgeKeyUuid (e : EntityEdge) : Lex (String × String) :=
  toLex (e.name, edgeUuidKey e)

/-- Sort key of `EDGE_ORDER["type_then_uuid"]`. -/
def edgeKeyTyped (e : EntityEdge) : Lex (String × Lex (Nat × String)) :=
  toLex (e.name, toLex (e.created_at, edgeUuidKey e))

/-- Sort key of `EDGE_ORDER["created_at_then_uuid"]`. -/
def edgeKeyCreated (e : EntityEdge) : Lex (Nat × Lex (String × String)) :=
  toLex (e.created_at, toLex (e.name, edgeUuidKey e))

/-- Python's string comparison: lexicographic on the code-point sequence.
Defined on the underlying character lists so that it evaluates (the
`String.ltb`-based order of the library does not reduce in the kernel);
`pyStrLt_iff` identifies it with the library order. -/
def pyStrLt (a b : String) : Bool :=
  decide (a.data < b.data)

theorem pyStrLt_iff (a b : String) : pyStrLt a b = true ↔ a < b := by
  rw [pyStrLt, String.lt_iff_toList_lt]
  simp [String.toList]

theorem pyStrLt_eq_false_iff (a b : String) : pyStrLt a b = false ↔ b ≤ a := by
  rw [← Bool.not_eq_true, pyStrLt_iff, not_lt]

/-- Executable comparison for the `uuid` key tuple, exactly Python's
lexicographic tuple comparison on `(name, edgeUuidKey)`. -/
def edgeLeUuidB (a b : EntityEdge) : Bool :=
  pyStrLt a.name b.name ||
    (decide (a.name = b.name) && !pyStrLt (edgeUuidKey b) (edgeUuidKey a))

/-- Executable comparison for the `type_then_uuid` key tuple. -/
def edgeLeTypedB (a b : EntityEdge) : Bool :=
  pyStrLt a.name b.name ||
    (decide (a.name = b.name) &&
      (decide (a.created_at < b.created_at) ||
        (decide (a.created_at = b.created_at) &&
          !pyStrLt (edgeUuidKey b) (edgeUuidKey a))))

/-- Executable comparison for the `created_at_then_uuid` key tuple. -/
def edgeLeCreatedB (a b : EntityEdge) : Bool :=
  decide (a.created_at < b.created_at) ||
    (decide (a.created_at = b.created_at) &&
      (pyStrLt a.name b.name ||
        (decide (a.name = b.name) &&
          !pyStrLt (edgeUuidKey b) (edgeUuidKey a))))

/-- The key comparison induced by `EDGE_ORDER.get(mode, EDGE_ORDER["uuid"])`:
an unrecognised mode falls back to the `uuid` key. -/
def edgeLeB (mode : String) (a b : EntityEdge) : Bool :=
  if mode = "type_then_uuid" then edgeLeTypedB a b
  else if mode = "created_at_then_uuid" then edgeLeCreatedB a b
  else edgeLeUuidB a b

/-- The total preorder on edges used by the sort. -/
def edgeLe (mode : String) (a b : EntityEdge) : Prop :=
  edgeLeB mode a b = true

instance (mode : String) : DecidableRel (edgeLe mode) := fun a b =>
  inferInstanceAs (Decidable (edgeLeB mode a b = true))

theorem edgeLeUuidB_iff (a b : EntityEdge) :
    edgeLeUuidB a b = true ↔ edgeKeyUuid a ≤ edgeKeyUuid b := by
  simp [edgeLeUuidB, edgeKeyUuid, Prod.Lex.le_iff, Bool.or_eq_true, Bool.and_eq_true,
    Bool.not_eq_true', pyStrLt_iff, pyStrLt_eq_false_iff]

theorem edgeLeTypedB_iff (a b : EntityEdge) :
    edgeLeTypedB a b = true ↔ edgeKeyTyped a ≤ edgeKeyTyped b := by
  simp [edgeLeTypedB, edgeKeyTyped, Prod.Lex.le_iff, Bool.or_eq_true, Bool.and_eq_true,
    Bool.not_eq_true', pyStrLt_iff, pyStrLt_eq_false_iff]

theorem edgeLeCreatedB_iff (a b : EntityEdge) :
    edgeLeCreatedB a b = true ↔ edgeKeyCreated a ≤ edgeKeyCreated b := by
  simp [edgeLeCreatedB, edgeKeyCreated, Prod.Lex.le_iff, Bool.or_eq_true, Bool.and_eq_true,
    Bool.not_eq_true', pyStrLt_iff, pyStrLt_eq_false_iff]

instance (mode : String) : IsTotal EntityEdge (edgeLe mode) := by
  constructor
  intro a b
  unfold edgeLe edgeLeB
  split
  · rw [edgeLeTypedB_iff, edgeLeTypedB_iff]
    exact le_total _ _
  · split
    · rw [edgeLeCreatedB_iff, edgeLeCreatedB_iff]
      exact le_total _ _
    · rw [edgeLeUuidB_iff, edgeLeUuidB_iff]
      exact le_total _ _

instance (mode : String) : IsTrans EntityEdge (edgeLe mode) := by
  constructor
  intro a b c
  unfold edgeLe edgeLeB
  split
  · rw [edgeLeTypedB_iff, edgeLeTypedB_iff, edgeLeTypedB_iff]
    exact le_trans
  · split
    · rw [edgeLeCreatedB_iff, edgeLeCreatedB_iff, edgeLeCreatedB_iff]
      exact le_trans
    · rw [edgeLeUuidB_iff, edgeLeUuidB_iff, edgeLeUuidB_iff]
      exact le_trans

/-- `sorted(edges, key=key_fn)` of the source: Python's `sorted` is a stable
sort by the key, modelled by the stable `List.insertionSort` under the
key-induced total preorder. -/
def sortEdges (mode : String) (edges : List EntityEdge) : List EntityEdge :=
  List.insertionSort (edgeLe mode) edges

/-- `TokenBudget.can_add_edge(result, edge)` (`token_budget.py`): deep-copies
the result, appends the edge to its `edges` list and checks the fresh
estimate against `limit` (the running `used` counter plays no part). -/
def can_add_edge (est : Page → Nat) (limit : Nat) (result : Page) (e : EdgeFlat) : Bool :=
  decide (est { result with edges := result.edges ++ [e] } ≤ limit)

/-- The node record placed in the page for a fetched uuid: the flattened
node, or the `error` record when the store returns nothing
(`advance_bfs` lines 71-76 and 131-136). -/
def fetchNodeRec (store : GraphStore) (uuid : String) : NodeRec :=
  match store.getNode uuid with
  | none => .missing uuid
  | some n => .ok (format_node_flat n)

/-- The mutable state threaded through one `advance_bfs` call: the page
being built plus the session fields the source mutates in place. -/
structure EngineState where
  page : Page
  frontier : List Frame
  visited : List String
  yielded : Nat
deriving DecidableEq

/-- Result of consuming the edges of one frame: either all edges were
consumed (the frame is discarded), or the budget refused edge `i`. -/
inductive ProcessOutcome where
  | completed (st : EngineState)
  | interrupted (i : Nat) (st : EngineState)
deriving DecidableEq

/-- The endpoint of `e` that is not the frame's node (`advance_bfs`
lines 110-113). -/
def targetOf (frameNode : String) (e : EntityEdge) : String :=
  if e.source_node_uuid = frameNode then e.target_node_uuid else e.source_node_uuid

/-- The edge id `f"E:{source}:{target}:{yielded_edges}"`. -/
def edgeIdStr (e : EntityEdge) (order : Nat) : String :=
  "E:" ++ e.source_node_uuid ++ ":" ++ e.target_node_uuid ++ ":" ++ Nat.repr order

/-- The inner `while i < len(edges_sorted)` loop of `advance_bfs`
(lines 104-174).  The source walks the sorted list from index
`frame.next_edge_index`; the embedding recurses structurally over the
remaining suffix `edges_sorted.drop i`, carrying `i` for the
`next_edge_index` recorded on interruption. -/
def processEdges (est : Page → Nat) (limit : Nat) (store : GraphStore)
    (maxDepth : Nat) (frameNode : String) (depthRem : Nat) :
    List EntityEdge → Nat → EngineState → ProcessOutcome
  | [], _, st => .completed st
  | e :: rest, i, st =>
    let target := targetOf frameNode e
    let current_depth : Int := (maxDepth : Int) - (depthRem : Int) + 1
    let erec := format_edge_flat e current_depth st.yielded (some (edgeIdStr e st.yielded))
    if target ∈ st.visited then
      -- target already visited: just add the edge if the budget allows
      if can_add_edge est limit st.page erec then
        processEdges est limit store maxDepth frameNode depthRem rest (i + 1)
          { st with page := { st.page with edges := st.page.edges ++ [erec] },
                    yielded := st.yielded + 1 }
      else
        .interrupted i st
    else
      let trec := fetchNodeRec store target
      -- temp_result of the source carries only nodes and edges, no start
      let temp : Page :=
        ⟨none, dictUpdate st.page.nodes target trec, st.page.edges ++ [erec]⟩
      if can_add_edge est limit st.page erec && decide (est temp ≤ limit) then
        processEdges est limit store maxDepth frameNode depthRem rest (i + 1)
          { page := { st.page with nodes := dictUpdate st.page.nodes target trec,
                                   edges := st.page.edges ++ [erec] },
            yielded := st.yielded + 1,
            visited := st.visited ++ [target],
            frontier := if 1 < depthRem then
                st.frontier ++ [⟨target, depthRem - 1, 0⟩]
              else st.frontier }
      else
        .interrupted i st

/-- Writes the engine state's mutable fields back into the session, as the
in-place mutation of the source leaves them at return. -/
def finishSession (sess : TraverseSession) (st : EngineState) : TraverseSession :=
  { sess with frontier := st.frontier, visited := st.visited, yielded_edges := st.yielded }

/-- The value returned by `advance_bfs`: `(partial_result, has_more,
estimated_tokens)` plus the mutated session (mutated in place in Python). -/
structure AdvanceResult where
  page : Page
  has_more : Bool
  est_tokens : Nat
  sess : TraverseSession
deriving DecidableEq

/-- The outer `while sess.frontier` loop of `advance_bfs` (lines 87-181).
The Python loop has no structural bound (the frontier may grow), so the
embedding takes fuel and returns `none` when it runs out. -/
def advanceLoop (est : Page → Nat) (limit : Nat) (store : GraphStore)
    (sess : TraverseSession) (fuel : Nat) (st : EngineState) :
    Option AdvanceResult :=
  match fuel with
  | 0 => none
  | fuel + 1 =>
    match st.frontier with
    | [] => some ⟨st.page, false, est st.page, finishSession sess st⟩
    | frame :: rest =>
      let edges := store.getEdges frame.node_uuid
      if edges = [] then
        advanceLoop est limit store sess fuel { st with frontier := rest }
      else
        let es := sortEdges sess.edge_ordering edges
        match processEdges est limit store sess.max_depth frame.node_uuid
            frame.depth_remaining (es.drop frame.next_edge_index) frame.next_edge_index
            { st with frontier := rest } with
        | .completed st1 => advanceLoop est limit store sess fuel st1
        | .interrupted i st1 =>
          some ⟨st1.page, true, est st1.page,
            finishSession sess
              { st1 with frontier := { frame with next_edge_index := i } :: st1.frontier }⟩

/-- The first-page initialisation of `advance_bfs` (lines 61-84): record the
root as visited, fetch it (or synthesise the error record), and seed the
frontier when `max_depth > 0`.  Returns the initial page and session. -/
def initPhase (store : GraphStore) (sess : TraverseSession) :
    Page × TraverseSession :=
  if sess.visited = [] then
    let nrec := fetchNodeRec store sess.root_uuid
    let page : Page := ⟨some sess.root_uuid, [(sess.root_uuid, nrec)], []⟩
    let sess1 := { sess with visited := [sess.root_uuid] }
    let sess2 :=
      if 0 < sess.max_depth then
        { sess1 with frontier := sess1.frontier ++ [⟨sess.root_uuid, sess.max_depth, 0⟩] }
      else sess1
    (page, sess2)
  else
    (⟨some sess.root_uuid, [], []⟩, sess)

/-- `engine_bfs.advance_bfs`: advance the traversal by one page.  The early
return for `max_depth == 0` sits inside the first-page branch, exactly as
in the source. -/
def advance_bfs (est : Page → Nat) (limit : Nat) (store : GraphStore)
    (fuel : Nat) (sess : TraverseSession) : Option AdvanceResult :=
  let pr := initPhase store sess
  if sess.visited = [] ∧ sess.max_depth = 0 then
    some ⟨pr.1, false, est pr.1, pr.2⟩
  else
    advanceLoop est limit store pr.2 fuel
      ⟨pr.1, pr.2.frontier, pr.2.visited, pr.2.yielded_edges⟩

/-- The fresh session built by the wrapper for an initial request
(`traverse_wrapper.py` lines 100-111). -/
def new_session (start_node_uuid : String) (depth : Nat) (now : Nat) :
    TraverseSession :=
  { root_uuid := start_node_uuid, max_depth := depth, strategy := "bfs",
    edge_ordering := "uuid",
    query_hash := start_node_uuid ++ ":" ++ Nat.repr depth,
    frontier := [], visited := [], yielded_edges := 0,
    started_at := now, expires_at := now + 3600, schema_version := 1 }

/-- Claim C6 helper: the page produced for a fresh `max_depth = 0` session. -/
def rootOnlyPage (store : GraphStore) (root : String) : Page :=
  ⟨some root, [(root, fetchNodeRec store root)], []⟩

/-- C6: on a fresh session with `max_depth = 0`, `advance_bfs` returns the
page holding only the root record, no edges, `has_more = false`, and the
estimate of that page — whatever edges the store has at the root. -/
theorem advance_bfs_depth_zero (est : Page → Nat) (limit : Nat)
    (store : GraphStore) (fuel : Nat) (root : String) (now : Nat) :
    advance_bfs est limit store fuel (new_session root 0 now) =
      some ⟨rootOnlyPage store root, false, est (rootOnlyPage store root),
        { new_session root 0 now with visited := [root] }⟩ := by
  rfl

/-- Store for the C3 counterexample: no node exists, yet the store lists one
edge incident to the uuid "A". -/
def c3Store : GraphStore :=
  ⟨fun _ => none,
   fun u => if u = "A" then [⟨"e1", "r", "f", "A", "B", [], 5, none, none⟩] else []⟩

/-- An estimator that charges nothing (so the budget never refuses). -/
def estZero : Page → Nat := fun _ => 0

/-- C3 counterexample: with the root node missing but the store reporting an
edge at the root's uuid, the page contains one emitted edge (not `edges = []`),
so the engine did recurse through the missing root. -/
theorem advance_bfs_missing_root_emits_edges :
    ((advance_bfs estZero 20000 c3Store 3 (new_session "A" 1 0)).map
        (fun r => (r.page.edges.length, r.has_more))) = some (1, false) ∧
      c3Store.getNode "A" = none := by
  constructor
  · rfl
  · rfl

/-- The missing-target half of the C3 correction: whenever the inner edge
loop meets an edge whose non-frame endpoint is unvisited, absent from the
store, and admitted by the budget, with `depth_remaining > 1`, it records the
`\x7buuid, error\x7d` node record for that endpoint AND appends a fresh
`Frame(target, depth_remaining - 1, 0)` to the frontier — the missing node is
recursed into, not treated as a terminal. -/
def missingTargetEnqueued (est : Page → Nat) (limit : Nat) (store : GraphStore) : Prop :=
  ∀ (maxDepth : Nat) (frameNode : String) (depthRem : Nat) (e : EntityEdge)
    (rest : List EntityEdge) (i : Nat) (st : EngineState),
    targetOf frameNode e ∉ st.visited →
    store.getNode (targetOf frameNode e) = none →
    1 < depthRem →
    (can_add_edge est limit st.page
        (format_edge_flat e ((maxDepth : Int) - (depthRem : Int) + 1) st.yielded
          (some (edgeIdStr e st.yielded))) &&
      decide (est ⟨none,
          dictUpdate st.page.nodes (targetOf frameNode e)
            (NodeRec.missing (targetOf frameNode e)),
          st.page.edges ++ [format_edge_flat e ((maxDepth : Int) - (depthRem : Int) + 1)
            st.yielded (some (edgeIdStr e st.yielded))]⟩ ≤ limit)) = true →
    ∃ st' : EngineState,
      processEdges est limit store maxDepth frameNode depthRem (e :: rest) i st =
        processEdges est limit store maxDepth frameNode depthRem rest (i + 1) st' ∧
      st'.frontier = st.frontier ++ [⟨targetOf frameNode e, depthRem - 1, 0⟩] ∧
      st'.page.nodes = dictUpdate st.page.nodes (targetOf frameNode e)
        (NodeRec.missing (targetOf frameNode e)) ∧
      st'.visited = st.visited ++ [targetOf frameNode e]

theorem processEdges_missing_target (est : Page → Nat) (limit : Nat)
    (store : GraphStore) : missingTargetEnqueued est limit store := by
  intro maxDepth frameNode depthRem e rest i st hnv hmiss hdr hbud
  refine ⟨{ page := { st.page with
              nodes := dictUpdate st.page.nodes (targetOf frameNode e)
                         (NodeRec.missing (targetOf frameNode e)),
              edges := st.page.edges ++ [format_edge_flat e
                         ((maxDepth : Int) - (depthRem : Int) + 1) st.yielded
                         (some (edgeIdStr e st.yielded))] },
            frontier := st.frontier ++ [⟨targetOf frameNode e, depthRem - 1, 0⟩],
            visited := st.visited ++ [targetOf frameNode e],
            yielded := st.yielded + 1 }, ?_, rfl, rfl, rfl⟩
  simp only [processEdges]
  rw [if_neg hnv]
  simp only [fetchNodeRec, hmiss]
  rw [if_pos hbud, if_pos hdr]

/-- C3 amended: the error record is emitted for a missing root, and when the
store also has no edges at the root's uuid the page is exactly
`nodes = \x7broot: error\x7d, edges = [], has_more = false`; but the engine
still enqueues a frame for a missing node rather than treating it as a
terminal: the root frame whenever `max_depth > 0`, and (third conjunct) a
frame for any unvisited missing target whenever `depth_remaining > 1` and the
budget admits its edge. -/
theorem advance_bfs_missing_root_spec (est : Page → Nat) (limit : Nat)
    (store : GraphStore) (fuel : Nat) (root : String) (d now : Nat)
    (hnode : store.getNode root = none) (hedges : store.getEdges root = [])
    (hfuel : 2 ≤ fuel) :
    advance_bfs est limit store fuel (new_session root d now) =
      some ⟨⟨some root, [(root, NodeRec.missing root)], []⟩, false,
        est ⟨some root, [(root, NodeRec.missing root)], []⟩,
        { new_session root d now with visited := [root] }⟩ ∧
      (0 < d → (initPhase store (new_session root d now)).2.frontier = [⟨root, d, 0⟩]) ∧
      missingTargetEnqueued est limit store := by
  obtain ⟨k, rfl⟩ : ∃ k, fuel = k + 2 := ⟨fuel - 2, by omega⟩
  refine ⟨?_, ?_, processEdges_missing_target est limit store⟩
  · cases d with
    | zero =>
      simp [advance_bfs, initPhase, new_session, fetchNodeRec, hnode]
    | succ d =>
      simp [advance_bfs, initPhase, new_session, fetchNodeRec, hnode,
        advanceLoop, hedges, finishSession]
  · intro hd
    simp [initPhase, new_session, hd]

/-- The budget-refusal test of `advance_bfs` at edge index `i` of the sorted
edge list: in the unvisited-target branch both the `can_add_edge` check and
the `temp_result` estimate must pass; in the visited-target branch only
`can_add_edge` is consulted.  `visited`, `yielded` and `page` are the values
at the moment of refusal (which the refusing return leaves unchanged). -/
def refusalCondition (est : Page → Nat) (limit : Nat) (store : GraphStore)
    (maxDepth : Nat) (visited : List String) (yielded : Nat) (page : Page)
    (frameNode : String) (depthRem : Nat) (i : Nat)
    (edges : List EntityEdge) : Prop :=
  ∃ e rest, edges.drop i = e :: rest ∧
    ((fun erec =>
      if targetOf frameNode e ∈ visited then
        can_add_edge est limit page erec = false
      else
        (can_add_edge est limit page erec &&
          decide (est ⟨none,
              dictUpdate page.nodes (targetOf frameNode e)
                (fetchNodeRec store (targetOf frameNode e)),
              page.edges ++ [erec]⟩ ≤ limit)) = false)
     (format_edge_flat e ((maxDepth : Int) - (depthRem : Int) + 1) yielded
        (some (edgeIdStr e yielded))))

theorem processEdges_interrupted_spec (est : Page → Nat) (limit : Nat)
    (store : GraphStore) (maxD : Nat) (fn : String) (dr : Nat) :
    ∀ (rem : List EntityEdge) (i : Nat) (st : EngineState) (j : Nat)
      (st' : EngineState),
      processEdges est limit store maxD fn dr rem i st = .interrupted j st' →
      (∃ e rest, rem.drop (j - i) = e :: rest ∧
        ((fun erec =>
          if targetOf fn e ∈ st'.visited then
            can_add_edge est limit st'.page erec = false
          else
            (can_add_edge est limit st'.page erec &&
              decide (est ⟨none,
                  dictUpdate st'.page.nodes (targetOf fn e)
                    (fetchNodeRec store (targetOf fn e)),
                  st'.page.edges ++ [erec]⟩ ≤ limit)) = false)
         (format_edge_flat e ((maxD : Int) - (dr : Int) + 1) st'.yielded
            (some (edgeIdStr e st'.yielded))))) ∧
      i ≤ j ∧
      (∀ f ∈ st'.frontier, f ∈ st.frontier ∨ f.next_edge_index = 0) := by
  intro rem
  induction rem with
  | nil =>
    intro i st j st' h
    simp [processEdges] at h
  | cons e rest ih =>
    intro i st j st' h
    simp only [processEdges] at h
    by_cases hv : targetOf fn e ∈ st.visited
    · rw [if_pos hv] at h
      by_cases hc : can_add_edge est limit st.page
          (format_edge_flat e ((maxD : Int) - (dr : Int) + 1) st.yielded
            (some (edgeIdStr e st.yielded))) = true
      · rw [if_pos hc] at h
        obtain ⟨hcond, hij, hfr⟩ := ih (i + 1) _ j st' h
        refine ⟨?_, by omega, hfr⟩
        obtain ⟨e2, r2, hdrop, hc2⟩ := hcond
        refine ⟨e2, r2, ?_, hc2⟩
        have : j - i = (j - (i + 1)) + 1 := by omega
        rw [this, List.drop_succ_cons]
        exact hdrop
      · rw [if_neg hc] at h
        obtain ⟨rfl, rfl⟩ : j = i ∧ st' = st := by
          cases h
          exact ⟨rfl, rfl⟩
        refine ⟨⟨e, rest, by simp, ?_⟩, le_refl _, fun f hf => Or.inl hf⟩
        simp only
        rw [if_pos hv]
        exact Bool.not_eq_true _ ▸ (by simpa using hc)
    · rw [if_neg hv] at h
      by_cases hc : (can_add_edge est limit st.page
            (format_edge_flat e ((maxD : Int) - (dr : Int) + 1) st.yielded
              (some (edgeIdStr e st.yielded))) &&
          decide (est ⟨none,
              dictUpdate st.page.nodes (targetOf fn e)
                (fetchNodeRec store (targetOf fn e)),
              st.page.edges ++
                [format_edge_flat e ((maxD : Int) - (dr : Int) + 1) st.yielded
                  (some (edgeIdStr e st.yielded))]⟩ ≤ limit)) = true
      · rw [if_pos hc] at h
        obtain ⟨hcond, hij, hfr⟩ := ih (i + 1) _ j st' h
        refine ⟨?_, by omega, ?_⟩
        · obtain ⟨e2, r2, hdrop, hc2⟩ := hcond
          refine ⟨e2, r2, ?_, hc2⟩
          have : j - i = (j - (i + 1)) + 1 := by omega
          rw [this, List.drop_succ_cons]
          exact hdrop
        · intro f hf
          rcases hfr f hf with hmem | hidx
          · simp only at hmem
            split at hmem
            · rcases List.mem_append.mp hmem with h1 | h1
              · exact Or.inl h1
              · simp at h1
                subst h1
                exact Or.inr rfl
            · exact Or.inl hmem
          · exact Or.inr hidx
      · rw [if_neg hc] at h
        obtain ⟨rfl, rfl⟩ : j = i ∧ st' = st := by
          cases h
          exact ⟨rfl, rfl⟩
        refine ⟨⟨e, rest, by simp, ?_⟩, le_refl _, fun f hf => Or.inl hf⟩
        simp only
        rw [if_neg hv]
        simpa using hc

theorem processEdges_completed_frontier (est : Page → Nat) (limit : Nat)
    (store : GraphStore) (maxD : Nat) (fn : String) (dr : Nat) :
    ∀ (rem : List EntityEdge) (i : Nat) (st st' : EngineState),
      processEdges est limit store maxD fn dr rem i st = .completed st' →
      ∀ f ∈ st'.frontier, f ∈ st.frontier ∨ f.next_edge_index = 0 := by
  intro rem
  induction rem with
  | nil =>
    intro i st st' h f hf
    simp only [processEdges] at h
    cases h
    exact Or.inl hf
  | cons e rest ih =>
    intro i st st' h f hf
    simp only [processEdges] at h
    by_cases hv : targetOf fn e ∈ st.visited
    · rw [if_pos hv] at h
      by_cases hc : can_add_edge est limit st.page
          (format_edge_flat e ((maxD : Int) - (dr : Int) + 1) st.yielded
            (some (edgeIdStr e st.yielded))) = true
      · rw [if_pos hc] at h
        exact ih (i + 1) _ st' h f hf
      · rw [if_neg hc] at h
        cases h
    · rw [if_neg hv] at h
      by_cases hc : (can_add_edge est limit st.page
            (format_edge_flat e ((maxD : Int) - (dr : Int) + 1) st.yielded
              (some (edgeIdStr e st.yielded))) &&
          decide (est ⟨none,
              dictUpdate st.page.nodes (targetOf fn e)
                (fetchNodeRec store (targetOf fn e)),
              st.page.edges ++
                [format_edge_flat e ((maxD : Int) - (dr : Int) + 1) st.yielded
                  (some (edgeIdStr e st.yielded))]⟩ ≤ limit)) = true
      · rw [if_pos hc] at h
        rcases ih (i + 1) _ st' h f hf with hmem | hidx
        · simp only at hmem
          split at hmem
          · rcases List.mem_append.mp hmem with h1 | h1
            · exact Or.inl h1
            · simp at h1
              subst h1
              exact Or.inr rfl
          · exact Or.inl hmem
        · exact Or.inr hidx
      · rw [if_neg hc] at h
        cases h

theorem advanceLoop_true_spec (est : Page → Nat) (limit : Nat)
    (store : GraphStore) (sess : TraverseSession) :
    ∀ (fuel : Nat) (st : EngineState) (r : AdvanceResult),
      advanceLoop est limit store sess fuel st = some r →
      r.has_more = true →
      ∃ node dr i rest,
        r.sess.frontier = ⟨node, dr, i⟩ :: rest ∧
        refusalCondition est limit store sess.max_depth r.sess.visited
          r.sess.yielded_edges r.page node dr i
          (sortEdges sess.edge_ordering (store.getEdges node)) ∧
        (∀ f ∈ rest, f ∈ st.frontier ∨ f.next_edge_index = 0) ∧
        r.est_tokens = est r.page := by
  intro fuel
  induction fuel with
  | zero =>
    intro st r h
    simp [advanceLoop] at h
  | succ fuel ih =>
    intro st r h hm
    rw [advanceLoop] at h
    match hfr : st.frontier with
    | [] =>
      rw [hfr] at h
      cases h
      simp at hm
    | frame :: rest =>
      rw [hfr] at h
      simp only at h
      by_cases he : store.getEdges frame.node_uuid = []
      · rw [if_pos he] at h
        obtain ⟨node, dr, i, rest2, h1, h2, h3, h4⟩ := ih _ r h hm
        refine ⟨node, dr, i, rest2, h1, h2, ?_, h4⟩
        intro f hf
        rcases h3 f hf with hmem | hidx
        · exact Or.inl (hfr ▸ List.mem_cons_of_mem _ hmem)
        · exact Or.inr hidx
      · rw [if_neg he] at h
        match hp : processEdges est limit store sess.max_depth frame.node_uuid
            frame.depth_remaining
            ((sortEdges sess.edge_ordering (store.getEdges frame.node_uuid)).drop
              frame.next_edge_index)
            frame.next_edge_index { st with frontier := rest } with
        | .completed st1 =>
          rw [hp] at h
          obtain ⟨node, dr, i, rest2, h1, h2, h3, h4⟩ := ih st1 r h hm
          refine ⟨node, dr, i, rest2, h1, h2, ?_, h4⟩
          intro f hf
          rcases h3 f hf with hmem | hidx
          · rcases processEdges_completed_frontier est limit store sess.max_depth
                frame.node_uuid frame.depth_remaining _ _ _ _ hp f hmem with hmem2 | hidx2
            · exact Or.inl (hfr ▸ List.mem_cons_of_mem _ hmem2)
            · exact Or.inr hidx2
          · exact Or.inr hidx
        | .interrupted j st1 =>
          rw [hp] at h
          cases h
          obtain ⟨hcond, hij, hfront⟩ := processEdges_interrupted_spec est limit store
            sess.max_depth frame.node_uuid frame.depth_remaining _ _ _ _ _ hp
          refine ⟨frame.node_uuid, frame.depth_remaining, j, st1.frontier, rfl, ?_, ?_, rfl⟩
          · obtain ⟨e, r2, hdrop, hc⟩ := hcond
            refine ⟨e, r2, ?_, hc⟩
            rw [← hdrop, List.drop_drop]
            congr 1
            omega
          · intro f hf
            rcases hfront f hf with hmem | hidx
            · exact Or.inl (hfr ▸ List.mem_cons_of_mem _ hmem)
            · exact Or.inr hidx

theorem initPhase_preserves (store : GraphStore) (sess : TraverseSession) :
    (initPhase store sess).2.max_depth = sess.max_depth ∧
    (initPhase store sess).2.edge_ordering = sess.edge_ordering := by
  unfold initPhase
  split
  · dsimp only
    split <;> exact ⟨rfl, rfl⟩
  · exact ⟨rfl, rfl⟩

theorem initPhase_frontier_mem (store : GraphStore) (sess : TraverseSession) :
    ∀ f ∈ (initPhase store sess).2.frontier,
      f ∈ sess.frontier ∨ f.next_edge_index = 0 := by
  unfold initPhase
  split
  · dsimp only
    split
    · intro f hf
      rcases List.mem_append.mp hf with h1 | h1
      · exact Or.inl h1
      · simp at h1
        subst h1
        exact Or.inr rfl
    · intro f hf
      exact Or.inl hf
  · intro f hf
    exact Or.inl hf

/-- C1: whenever `advance_bfs` returns a page with `has_more = true`, the
return was a budget refusal: the head of the saved frontier is the
interrupted frame with `next_edge_index` set to the refused edge's index in
the sorted edge list (the refusal test failing exactly there), so the frame
was reinserted at the front; every frame behind it is either a frame the
session already had or a fresh frame with `next_edge_index = 0` — a
partially consumed frame is never appended at the back. -/
theorem budget_interrupt_reinserts_front (est : Page → Nat) (limit : Nat)
    (store : GraphStore) (fuel : Nat) (sess : TraverseSession) (r : AdvanceResult)
    (h : advance_bfs est limit store fuel sess = some r) (hm : r.has_more = true) :
    ∃ node dr i rest,
      r.sess.frontier = ⟨node, dr, i⟩ :: rest ∧
      refusalCondition est limit store sess.max_depth r.sess.visited
        r.sess.yielded_edges r.page node dr i
        (sortEdges sess.edge_ordering (store.getEdges node)) ∧
      (∀ f ∈ rest, f ∈ sess.frontier ∨ f.next_edge_index = 0) ∧
      r.est_tokens = est r.page := by
  unfold advance_bfs at h
  by_cases h0 : sess.visited = [] ∧ sess.max_depth = 0
  · rw [if_pos h0] at h
    cases h
    simp at hm
  · rw [if_neg h0] at h
    obtain ⟨node, dr, i, rest, h1, h2, h3, h4⟩ :=
      advanceLoop_true_spec est limit store (initPhase store sess).2 fuel _ r h hm
    obtain ⟨hmd, hord⟩ := initPhase_preserves store sess
    rw [hmd, hord] at h2
    refine ⟨node, dr, i, rest, h1, h2, ?_, h4⟩
    intro f hf
    rcases h3 f hf with hmem | hidx
    · exact initPhase_frontier_mem store sess f hmem
    · exact Or.inr hidx

/-- Concrete store for the C1 witness: one edge at the root, whose target
node the store does not have. -/
def c1Store : GraphStore :=
  ⟨fun _ => none,
   fun u => if u = "A" then [⟨"e1", "r", "f", "A", "B", [], 5, none, none⟩] else []⟩

/-- Estimator counting one token per emitted edge. -/
def estEdges : Page → Nat := fun p => p.edges.length

/-- The page/session value `advance_bfs` produces in the C1 witness run
(limit 0, so the very first edge is refused). -/
def c1Result : AdvanceResult :=
  ⟨⟨some "A", [("A", NodeRec.missing "A")], []⟩, true, 0,
   { new_session "A" 1 0 with visited := ["A"], frontier := [⟨"A", 1, 0⟩] }⟩

theorem budget_interrupt_reinserts_front_witness :
    ∃ node dr i rest,
      c1Result.sess.frontier = ⟨node, dr, i⟩ :: rest ∧
      refusalCondition estEdges 0 c1Store (new_session "A" 1 0).max_depth
        c1Result.sess.visited c1Result.sess.yielded_edges c1Result.page node dr i
        (sortEdges (new_session "A" 1 0).edge_ordering (c1Store.getEdges node)) ∧
      (∀ f ∈ rest, f ∈ (new_session "A" 1 0).frontier ∨ f.next_edge_index = 0) ∧
      c1Result.est_tokens = estEdges c1Result.page :=
  budget_interrupt_reinserts_front estEdges 0 c1Store 5 (new_session "A" 1 0)
    c1Result (by rfl) (by rfl)

/-- Modelled from the spec for comparison (refinement check): the `uuid`
mode as the spec words it — primary key the relation type, secondary key
the uuid of the endpoint that is not the focus node, remaining ambiguity
broken by edge uuid ascending. -/
def specEdgeKeyUuid (focus : String) (e : EntityEdge) :
    Lex (String × Lex (String × String)) :=
  toLex (e.name, toLex (targetOf focus e, e.uuid))

/-- Executable form of the spec-worded `uuid` comparison. -/
def specEdgeLeUuidB (focus : String) (a b : EntityEdge) : Bool :=
  pyStrLt a.name b.name ||
    (decide (a.name = b.name) &&
      (pyStrLt (targetOf focus a) (targetOf focus b) ||
        (decide (targetOf focus a = targetOf focus b) &&
          !pyStrLt b.uuid a.uuid)))

/-- The spec-worded `uuid` ordering relation. -/
def specEdgeLeUuid (focus : String) (a b : EntityEdge) : Prop :=
  specEdgeLeUuidB focus a b = true

instance (focus : String) : DecidableRel (specEdgeLeUuid focus) := fun a b =>
  inferInstanceAs (Decidable (specEdgeLeUuidB focus a b = true))

/-- The spec-worded orderer for mode `uuid`. -/
def specSortUuid (focus : String) (edges : List EntityEdge) : List EntityEdge :=
  List.insertionSort (specEdgeLeUuid focus) edges

/-- Two edges incident to focus "A" for which the code key (target uuid) and
the spec key (other-endpoint uuid) disagree. -/
def c2ea : EntityEdge := ⟨"1", "r", "", "A", "B", [], 0, none, none⟩

def c2eb : EntityEdge := ⟨"2", "r", "", "C", "A", [], 0, none, none⟩

/-- Two edges with identical code keys, to exhibit dependence on the
physical store order. -/
def c2ec : EntityEdge := ⟨"1", "r", "", "A", "B", [], 0, none, none⟩

def c2ed : EntityEdge := ⟨"2", "r", "", "C", "B", [], 0, none, none⟩

/-- C2 counterexample: on edges incident to focus "A", the code's `uuid`
mode orders by the raw target uuid, not the other endpoint — producing the
opposite order from the spec's key — and two edges with equal code keys
keep whatever physical order the store returned, so the result is not a
function of the edge set independent of that order (and no edge-uuid
tiebreak is applied). -/
theorem edge_order_uuid_counterexample :
    sortEdges "uuid" [c2ea, c2eb] = [c2eb, c2ea] ∧
    specSortUuid "A" [c2ea, c2eb] = [c2ea, c2eb] ∧
    c2ea ≠ c2eb ∧
    sortEdges "uuid" [c2ec, c2ed] = [c2ec, c2ed] ∧
    sortEdges "uuid" [c2ed, c2ec] = [c2ed, c2ec] ∧
    ([c2ec, c2ed] : List EntityEdge) ≠ [c2ed, c2ec] := by
  refine ⟨by decide, by decide, by decide, by decide, by decide, by decide⟩

/-- The code's comparison for mode `uuid` is exactly the lexicographic order
on the key `(relation type, target uuid — source uuid when the target is
empty)`. -/
theorem edgeLe_uuid_iff_key (a b : EntityEdge) :
    edgeLe "uuid" a b ↔ edgeKeyUuid a ≤ edgeKeyUuid b := by
  unfold edgeLe edgeLeB
  rw [if_neg (by decide), if_neg (by decide)]
  exact edgeLeUuidB_iff a b

/-- C2 amended: in mode `uuid` the orderer stably sorts by the key
`(relation type, target uuid — source uuid when the target is empty)`:
the output is a permutation of the input, sorted under the lexicographic
order of that key, and any two edges in key order in the store's physical
order — ties included — stay in that order (stable, no edge-uuid
tiebreak). -/
theorem sortEdges_uuid_spec (es : List EntityEdge) (a b : EntityEdge)
    (hab : edgeKeyUuid a ≤ edgeKeyUuid b) (hsub : List.Sublist [a, b] es) :
    (sortEdges "uuid" es).Perm es ∧
    (sortEdges "uuid" es).Sorted (fun x y => edgeKeyUuid x ≤ edgeKeyUuid y) ∧
    List.Sublist [a, b] (sortEdges "uuid" es) :=
  ⟨List.perm_insertionSort _ es,
   List.Pairwise.imp (fun hxy => (edgeLe_uuid_iff_key _ _).mp hxy)
     (List.sorted_insertionSort _ es),
   List.pair_sublist_insertionSort ((edgeLe_uuid_iff_key a b).mpr hab) hsub⟩

theorem sortEdges_uuid_spec_witness :
    (sortEdges "uuid" [c2ec, c2ed]).Perm [c2ec, c2ed] ∧
    (sortEdges "uuid" [c2ec, c2ed]).Sorted (fun x y => edgeKeyUuid x ≤ edgeKeyUuid y) ∧
    List.Sublist [c2ec, c2ed] (sortEdges "uuid" [c2ec, c2ed]) :=
  sortEdges_uuid_spec [c2ec, c2ed] c2ec c2ed (le_of_eq (by rfl)) (List.Sublist.refl _)

/-- Store for the C3 amended witness: the root is missing and has no edges. -/
def c3wStore : GraphStore := ⟨fun _ => none, fun _ => []⟩

theorem advance_bfs_missing_root_spec_witness :
    (advance_bfs estZero 20000 c3wStore 2 (new_session "A" 1 0) =
      some ⟨⟨some "A", [("A", NodeRec.missing "A")], []⟩, false,
        estZero ⟨some "A", [("A", NodeRec.missing "A")], []⟩,
        { new_session "A" 1 0 with visited := ["A"] }⟩ ∧
      (0 < 1 → (initPhase c3wStore (new_session "A" 1 0)).2.frontier = [⟨"A", 1, 0⟩]) ∧
      missingTargetEnqueued estZero 20000 c3wStore) :=
  advance_bfs_missing_root_spec estZero 20000 c3wStore 2 "A" 1 0 rfl rfl (by decide)

/-- `session_store.SessionStore`: the in-memory mapping from session id to
session, as an insertion-ordered association list (a Python dict). -/
def SessionStoreMap : Type := List (String × TraverseSession)

/-- `SessionStore.save_session`. -/
def save_session (st : SessionStoreMap) (sid : String) (sess : TraverseSession) :
    SessionStoreMap :=
  dictUpdate st sid sess

/-- `SessionStore.load_session` (`self._sessions.get(session_id)`). -/
def load_session (st : SessionStoreMap) (sid : String) : Option TraverseSession :=
  dictGet st sid

/-- `SessionStore.delete_session` (`self._sessions.pop(session_id, None)`). -/
def delete_session (st : SessionStoreMap) (sid : String) : SessionStoreMap :=
  dictRemove st sid

/-- Replace a session's `expires_at` (used to state that the store never
inspects that field). -/
def setExpiresAt (t : Nat) (s : TraverseSession) : TraverseSession :=
  { s with expires_at := t }

/-- Map `setExpiresAt` over every stored session. -/
def mapExpiresAt (t : Nat) (st : SessionStoreMap) : SessionStoreMap :=
  st.map (fun kv => (kv.1, setExpiresAt t kv.2))

theorem dictGet_dictUpdate_self {α β : Type} [DecidableEq α]
    (l : List (α × β)) (k : α) (v : β) : dictGet (dictUpdate l k v) k = some v := by
  induction l with
  | nil => simp [dictUpdate, dictGet]
  | cons kv rest ih =>
    by_cases h : kv.1 = k
    · simp [dictUpdate, dictGet, h]
    · simp only [dictUpdate, dictGet, h, if_neg h]
      exact ih

theorem dictGet_map_value {α β : Type} [DecidableEq α] (g : β → β)
    (l : List (α × β)) (k : α) :
    dictGet (l.map (fun kv => (kv.1, g kv.2))) k = (dictGet l k).map g := by
  induction l with
  | nil => simp [dictGet]
  | cons kv rest ih =>
    by_cases h : kv.1 = k
    · simp [dictGet, h]
    · simp only [List.map_cons, dictGet, h, if_neg h]
      exact ih

theorem dictRemove_map_value {α β : Type} [DecidableEq α] (g : β → β)
    (l : List (α × β)) (k : α) :
    dictRemove (l.map (fun kv => (kv.1, g kv.2))) k =
      (dictRemove l k).map (fun kv => (kv.1, g kv.2)) := by
  induction l with
  | nil => simp [dictRemove]
  | cons kv rest ih =>
    by_cases h : kv.1 = k
    · simp [dictRemove, h]
    · simp only [List.map_cons, dictRemove, h, if_neg h, List.map_cons]
      simp [ih]

theorem dictUpdate_map_value {α β : Type} [DecidableEq α] (g : β → β)
    (l : List (α × β)) (k : α) (v : β) :
    dictUpdate (l.map (fun kv => (kv.1, g kv.2))) k (g v) =
      (dictUpdate l k v).map (fun kv => (kv.1, g kv.2)) := by
  induction l with
  | nil => simp [dictUpdate]
  | cons kv rest ih =>
    by_cases h : kv.1 = k
    · simp [dictUpdate, h]
    · simp only [List.map_cons, dictUpdate, h, if_neg h, List.map_cons]
      simp [ih]

/-- C10: the session store never enforces session expiry.  A saved session
whose `expires_at` already lies in the past is still returned unchanged by
`load_session`, and all three store operations commute with arbitrarily
rewriting every stored `expires_at` — none of them inspects the field or
evicts an expired session. -/
theorem session_store_ignores_expiry (st : SessionStoreMap) (sid sid2 : String)
    (sess : TraverseSession) (now t : Nat) (hexp : sess.expires_at < now) :
    load_session (save_session st sid sess) sid = some sess ∧
    load_session (mapExpiresAt t st) sid2 =
      (load_session st sid2).map (setExpiresAt t) ∧
    delete_session (mapExpiresAt t st) sid2 =
      mapExpiresAt t (delete_session st sid2) ∧
    save_session (mapExpiresAt t st) sid (setExpiresAt t sess) =
      mapExpiresAt t (save_session st sid sess) :=
  ⟨dictGet_dictUpdate_self st sid sess,
   dictGet_map_value _ st sid2,
   dictRemove_map_value _ st sid2,
   dictUpdate_map_value _ st sid sess⟩

/-- A concrete already-expired session. -/
def c10Sess : TraverseSession :=
  { new_session "A" 1 0 with expires_at := 3 }

theorem session_store_ignores_expiry_witness :
    load_session (save_session [] "s" c10Sess) "s" = some c10Sess ∧
    load_session (mapExpiresAt 9 []) "t" =
      (load_session [] "t").map (setExpiresAt 9) ∧
    delete_session (mapExpiresAt 9 []) "t" =
      mapExpiresAt 9 (delete_session [] "t") ∧
    save_session (mapExpiresAt 9 []) "s" (setExpiresAt 9 c10Sess) =
      mapExpiresAt 9 (save_session [] "s" c10Sess) :=
  session_store_ignores_expiry [] "s" "t" c10Sess 5 9 (by decide)

/-- A JSON-serializable Python value (`json.dumps` input domain as used by
`token_budget.estimate_tokens`; floats do not occur in the pages built by
the engine and are omitted). -/
inductive JVal where
  | null
  | bool (b : Bool)
  | int (n : Int)
  | str (s : String)
  | arr (xs : List JVal)
  | obj (kvs : List (String × JVal))

/-- Lowercase hex digit, as Python's json module emits in escapes. -/
def hexDigit (n : Nat) : Char :=
  if n < 10 then Char.ofNat (48 + n) else Char.ofNat (87 + n)

/-- The escape of one character under `json.dumps(..., ensure_ascii=False)`:
quote, backslash and control characters are escaped, everything else is
emitted raw. -/
def escChar (c : Char) : List Char :=
  if c = '"' then ['\\', '"']
  else if c = '\\' then ['\\', '\\']
  else if c = '\n' then ['\\', 'n']
  else if c = '\t' then ['\\', 't']
  else if c = '\r' then ['\\', 'r']
  else if c.toNat = 8 then ['\\', 'b']
  else if c.toNat = 12 then ['\\', 'f']
  else if c.toNat < 32 then
    ['\\', 'u', '0', '0', hexDigit (c.toNat / 16), hexDigit (c.toNat % 16)]
  else [c]

def escapeChars : List Char → List Char
  | [] => []
  | c :: cs => escChar c ++ escapeChars cs

/-- A JSON string literal: quote, escaped characters, quote. -/
def jsonQuote (s : String) : String :=
  ⟨'"' :: (escapeChars s.data ++ ['"'])⟩

mutual

/-- `json.dumps(v, ensure_ascii=False)` with the default separators
`", "` and `": "` used by `token_budget.estimate_tokens`. -/
def dumpsJ : JVal → String
  | .null => "null"
  | .bool true => "true"
  | .bool false => "false"
  | .int n => toString n
  | .str s => jsonQuote s
  | .arr xs => "[" ++ dumpsArr xs ++ "]"
  | .obj kvs => "\x7b" ++ dumpsObj kvs ++ "\x7d"

def dumpsArr : List JVal → String
  | [] => ""
  | [x] => dumpsJ x
  | x :: y :: xs => dumpsJ x ++ ", " ++ dumpsArr (y :: xs)

def dumpsObj : List (String × JVal) → String
  | [] => ""
  | [(k, v)] => jsonQuote k ++ ": " ++ dumpsJ v
  | (k, v) :: kv2 :: kvs => jsonQuote k ++ ": " ++ dumpsJ v ++ ", " ++ dumpsObj (kv2 :: kvs)

end

/-- `token_budget.estimate_tokens`, the non-tiktoken fallback branch: a raw
string is measured by its own character count, anything else by the length
of its serialized JSON, with floor division by 4 and a floor of 1. -/
def estimate_tokens (v : JVal) : Nat :=
  match v with
  | .str s => max 1 (s.length / 4)
  | v => max 1 ((dumpsJ v).length / 4)

/-- Modelled from the spec for comparison (refinement check): the fallback
the spec words demand, `max(1, ceil(len(serialized_json)/4))`. -/
def spec_fallback_ceil (v : JVal) : Nat :=
  max 1 (((dumpsJ v).length + 3) / 4)

/-- The amended fallback: floor division, and the raw (unserialized) string
length for string inputs. -/
def amended_fallback (v : JVal) : Nat :=
  match v with
  | .str s => max 1 (s.length / 4)
  | v => max 1 ((dumpsJ v).length / 4)

/-- C7 counterexample: on the value `"abcde"` the code's fallback yields 1
(floor of 5/4 on the raw string) while the spec formula yields 2 (ceiling
of 7/4 on the serialized form). -/
theorem estimate_tokens_counterexample :
    estimate_tokens (.str "abcde") = 1 ∧ spec_fallback_ceil (.str "abcde") = 2 ∧
      estimate_tokens (.str "abcde") ≠ spec_fallback_ceil (.str "abcde") := by
  have h2 : spec_fallback_ceil (.str "abcde") = 2 := by
    have hd : dumpsJ (.str "abcde") = jsonQuote "abcde" := by
      simp [dumpsJ]
    rw [spec_fallback_ceil, hd]
    decide
  exact ⟨rfl, h2, by rw [h2]; decide⟩

theorem escapeChars_length_ge (l : List Char) : l.length ≤ (escapeChars l).length := by
  induction l with
  | nil => simp [escapeChars]
  | cons c cs ih =>
    have hc : 1 ≤ (escChar c).length := by
      unfold escChar
      split_ifs <;> simp
    simp only [escapeChars, List.length_append, List.length_cons]
    omega

/-- C7 amended: the fallback estimator equals
`max(1, floor(len/4))` where `len` is the raw character count for strings
and the serialized-JSON length otherwise; it never exceeds the ceiling
formula the spec states. -/
theorem estimate_tokens_spec (v : JVal) :
    estimate_tokens v = amended_fallback v ∧
      estimate_tokens v ≤ spec_fallback_ceil v := by
  refine ⟨rfl, ?_⟩
  match v with
  | .str s =>
    have h1 : dumpsJ (.str s) = jsonQuote s := by simp [dumpsJ]
    have h2 : s.length ≤ (jsonQuote s).length := by
      have := escapeChars_length_ge s.data
      simp only [jsonQuote, String.length, List.length_cons, List.length_append]
      omega
    show max 1 (s.length / 4) ≤ max 1 (((dumpsJ (JVal.str s)).length + 3) / 4)
    rw [h1]
    exact max_le_max (le_refl 1) (Nat.div_le_div_right (by omega))
  | .null =>
    exact max_le_max (le_refl 1) (Nat.div_le_div_right (by omega))
  | .bool b =>
    exact max_le_max (le_refl 1) (Nat.div_le_div_right (by omega))
  | .int n =>
    exact max_le_max (le_refl 1) (Nat.div_le_div_right (by omega))
  | .arr xs =>
    exact max_le_max (le_refl 1) (Nat.div_le_div_right (by omega))
  | .obj kvs =>
    exact max_le_max (le_refl 1) (Nat.div_le_div_right (by omega))

/-- Inner loop of the `paths_between_entities` construction in
`build_subgraph` (`graph_functions.py` lines 361-380): for a fixed first
seed `u1`, walk the later seeds, and for every pair with both uuids present
in the subgraph's node dict call `find_paths_between_entities` with
`max_depth = min(3, max_hop*2)`, `max_paths = 5`, storing `result["paths"]`
under the key `"{u1}_to_{u2}"` unless the call returned an error dict.
`find_paths_between_entities` and the node dict come from store queries and
are taken as parameters (`none` models an error response). -/
def bpbInner {π : Type} (f : String → String → Nat → Nat → Option (List π))
    (nd : String → Bool) (max_hop : Nat) (u1 : String) :
    List String → List (String × List π) → List (String × List π)
  | [], acc => acc
  | u2 :: rest, acc =>
    bpbInner f nd max_hop u1 rest
      (if nd u1 && nd u2 then
        match f u1 u2 (min 3 (max_hop * 2)) 5 with
        | some ps => dictUpdate acc (u1 ++ "_to_" ++ u2) ps
        | none => acc
      else acc)

/-- Outer loop over `enumerate(entity_uuids)`. -/
def bpbOuter {π : Type} (f : String → String → Nat → Nat → Option (List π))
    (nd : String → Bool) (max_hop : Nat) :
    List String → List (String × List π) → List (String × List π)
  | [], acc => acc
  | u1 :: rest, acc => bpbOuter f nd max_hop rest (bpbInner f nd max_hop u1 rest acc)

/-- The `paths_between_entities` mapping built by `build_subgraph`:
computed only when `include_paths` and more than one seed was passed. -/
def build_paths_between {π : Type} (f : String → String → Nat → Nat → Option (List π))
    (nd : String → Bool) (include_paths : Bool) (entity_uuids : List String)
    (max_hop : Nat) : List (String × List π) :=
  if include_paths && decide (1 < entity_uuids.length) then
    bpbOuter f nd max_hop entity_uuids []
  else []

/-- All ordered pairs `(uuids[i], uuids[j])` with `i < j`, in loop order. -/
def ordered_pairs : List String → List (String × String)
  | [] => []
  | u :: rest => rest.map (fun v => (u, v)) ++ ordered_pairs rest

/-- The pair/key/value selection the amended claim describes: each in-order
pair of seeds, kept when both are in the node dict and the path search did
not error, keyed `"A_to_B"` with the `paths` list of
`find_paths(A, B, min(3, max_hop*2), 5)`. -/
def selected_pairs {π : Type} (f : String → String → Nat → Nat → Option (List π))
    (nd : String → Bool) (max_hop : Nat) (uuids : List String) :
    List (String × List π) :=
  (ordered_pairs uuids).filterMap (fun ab =>
    if nd ab.1 && nd ab.2 then
      (f ab.1 ab.2 (min 3 (max_hop * 2)) 5).map (fun ps => (ab.1 ++ "_to_" ++ ab.2, ps))
    else none)

/-- Build a dict from an association list by repeated assignment. -/
def assoc_to_dict {β : Type} (l : List (String × β)) : List (String × β) :=
  l.foldl (fun acc kv => dictUpdate acc kv.1 kv.2) []

/-- The find-paths stub for the C9 counterexample: every query succeeds. -/
def c9f : String → String → Nat → Nat → Option (List Nat) := fun _ _ _ _ => some [42]

/-- Node dict containing only seed "A" (seed "B" was not found as an Entity
node, e.g. it does not exist in the store). -/
def c9nd : String → Bool := fun u => u == "A"

/-- C9 counterexample: with seeds `["A", "B"]` where "B" is absent from the
subgraph's node dict, `include_paths = true` produces an empty mapping — the
key "A_to_B" demanded by the claim for every unordered pair of seeds is
missing even though `find_paths` would have returned paths. -/
theorem build_paths_missing_seed_counterexample :
    build_paths_between c9f c9nd true ["A", "B"] 1 = [] ∧
      ("A_to_B", [42]) ∉ build_paths_between c9f c9nd true ["A", "B"] 1 ∧
      c9f "A" "B" (min 3 (1 * 2)) 5 = some [42] := by
  refine ⟨by decide, ?_, rfl⟩
  intro h
  rw [show build_paths_between c9f c9nd true ["A", "B"] 1 = [] from by decide] at h
  exact List.not_mem_nil _ h

theorem bpbInner_eq_foldl {π : Type} (f : String → String → Nat → Nat → Option (List π))
    (nd : String → Bool) (max_hop : Nat) (u1 : String) :
    ∀ (l : List String) (acc : List (String × List π)),
      bpbInner f nd max_hop u1 l acc =
        (l.filterMap (fun u2 =>
          if nd u1 && nd u2 then
            (f u1 u2 (min 3 (max_hop * 2)) 5).map (fun ps => (u1 ++ "_to_" ++ u2, ps))
          else none)).foldl (fun acc kv => dictUpdate acc kv.1 kv.2) acc := by
  intro l
  induction l with
  | nil => intro acc; rfl
  | cons u2 rest ih =>
    intro acc
    simp only [bpbInner, List.filterMap_cons]
    by_cases h : (nd u1 && nd u2) = true
    · rw [if_pos h, if_pos h]
      match hf : f u1 u2 (min 3 (max_hop * 2)) 5 with
      | some ps => simp only [Option.map_some, List.foldl_cons]; exact ih _
      | none => simp only [Option.map_none]; exact ih _
    · rw [if_neg h, if_neg h]
      exact ih _

theorem bpbOuter_eq_foldl {π : Type} (f : String → String → Nat → Nat → Option (List π))
    (nd : String → Bool) (max_hop : Nat) :
    ∀ (uuids : List String) (acc : List (String × List π)),
      bpbOuter f nd max_hop uuids acc =
        (selected_pairs f nd max_hop uuids).foldl
          (fun acc kv => dictUpdate acc kv.1 kv.2) acc := by
  intro uuids
  induction uuids with
  | nil => intro acc; rfl
  | cons u1 rest ih =>
    intro acc
    simp only [bpbOuter, selected_pairs, ordered_pairs, List.filterMap_append,
      List.foldl_append, List.filterMap_map]
    rw [ih, bpbInner_eq_foldl]
    rfl

/-- C9 amended: with `include_paths` and at least two seeds, the
`paths_between_entities` mapping is exactly the dict built, in loop order,
from those pairs `(A, B)` of seeds (list order, first-before-second) whose
uuids are both present in the subgraph node dict and for which
`find_paths(A, B, min(3, max_hop*2), 5)` did not return an error, each
contributing key `"A_to_B"` and the returned `paths` list; pairs with an
absent seed or an error response contribute nothing. -/
theorem build_paths_between_spec {π : Type}
    (f : String → String → Nat → Nat → Option (List π)) (nd : String → Bool)
    (uuids : List String) (max_hop : Nat) :
    build_paths_between f nd true uuids max_hop =
      if 1 < uuids.length then
        assoc_to_dict (selected_pairs f nd max_hop uuids)
      else [] := by
  unfold build_paths_between assoc_to_dict
  by_cases h : 1 < uuids.length
  · rw [if_pos h, if_pos (by simp [h]), bpbOuter_eq_foldl]
  · rw [if_neg h, if_neg (by simp [h])]

/-- 2^32, the word modulus of SHA-256. -/
def m32 : Nat := 4294967296

def add32 (a b : Nat) : Nat := (a + b) % m32

/-- Rotate a 32-bit word right by `n` (the low `n` bits wrap to the top). -/
def rotr32 (n x : Nat) : Nat := (x >>> n) ||| ((x % (1 <<< n)) <<< (32 - n))

/-- The 64 SHA-256 round constants packed big-endian into one numeral:
word `i` sits at bits `32 * (63 - i)` and up. -/
def shaKPacked : Nat :=
  0x428a2f9871374491b5c0fbcfe9b5dba53956c25b59f111f1923f82a4ab1c5ed5d807aa9812835b01243185be550c7dc372be5d7480deb1fe9bdc06a7c19bf174e49b69c1efbe47860fc19dc6240ca1cc2de92c6f4a7484aa5cb0a9dc76f988da983e5152a831c66db00327c8bf597fc7c6e00bf3d5a7914706ca63511429296727b70a852e1b21384d2c6dfc53380d13650a7354766a0abb81c2c92e92722c85a2bfe8a1a81a664bc24b8b70c76c51a3d192e819d6990624f40e3585106aa07019a4c1161e376c082748774c34b0bcb5391c0cb34ed8aa4a5b9cca4f682e6ff3748f82ee78a5636f84c878148cc7020890befffaa4506cebbef9a3f7c67178f2

/-- The SHA-256 round constants, in round order. -/
def shaK : List Nat :=
  (List.range 64).map (fun i => (shaKPacked >>> (32 * (63 - i))) % 4294967296)

/-- The SHA-256 initial hash value, packed like `shaKPacked`. -/
def shaH0Packed : Nat :=
  0x6a09e667bb67ae853c6ef372a54ff53a510e527f9b05688c1f83d9ab5be0cd19

/-- The SHA-256 initial hash value. -/
def shaH0 : List Nat :=
  (List.range 8).map (fun i => (shaH0Packed >>> (32 * (7 - i))) % 4294967296)

/-- Big-endian byte expansion of `n` into `k` bytes. -/
def toBytesBE (k n : Nat) : List Nat :=
  (List.range k).map (fun i => (n >>> (8 * (k - 1 - i))) % 256)

/-- The SHA-256 padding: a 1-bit, zeros to 56 mod 64, and the bit length. -/
def padMessage (msg : List Nat) : List Nat :=
  msg ++ 128 :: (List.replicate ((119 - msg.length % 64) % 64) 0 ++
    toBytesBE 8 (msg.length * 8))

def bytesToWords : List Nat → List Nat
  | b0 :: b1 :: b2 :: b3 :: rest =>
    (((b0 * 256 + b1) * 256 + b2) * 256 + b3) :: bytesToWords rest
  | _ => []

/-- Split into 64-byte blocks; the first argument is recursion fuel (any
bound on the block count works, the padded length is used below). -/
def chunksFuel : Nat → List Nat → List (List Nat)
  | 0, _ => []
  | _ + 1, [] => []
  | n + 1, b :: l => ((b :: l).take 64) :: chunksFuel n ((b :: l).drop 64)

/-- The 64 rounds of the compression function, one per constant in `ks`,
with the working variables `a..h` passed positionally and the message
schedule kept as a sliding 16-word window: at round `t` the window holds
`w[t..t+15]` and `w[t+16] = ssig1 w[t+14] + w[t+9] + ssig0 w[t+1] + w[t]`.
The rotations, `Ch`, `Maj` and the two big sigmas are inlined for kernel
evaluation speed. -/
def shaLoop : List Nat → Nat → Nat → Nat → Nat → Nat → Nat → Nat → Nat →
    Nat → Nat → Nat → Nat → Nat → Nat → Nat → Nat →
    Nat → Nat → Nat → Nat → Nat → Nat → Nat → Nat → List Nat
  | [], _, _, _, _, _, _, _, _, _, _, _, _, _, _, _, _,
      a, b, c, d, e, f, g, h => [a, b, c, d, e, f, g, h]
  | k :: ks, w0, w1, w2, w3, w4, w5, w6, w7, w8, w9, w10, w11, w12, w13, w14, w15,
      a, b, c, d, e, f, g, h =>
    let t1 := Nat.add (Nat.add (Nat.add (Nat.add h
      (Nat.xor (Nat.xor (Nat.lor (Nat.shiftRight e 6) (Nat.shiftLeft (Nat.mod e 64) 26))
        (Nat.lor (Nat.shiftRight e 11) (Nat.shiftLeft (Nat.mod e 2048) 21)))
        (Nat.lor (Nat.shiftRight e 25) (Nat.shiftLeft (Nat.mod e 33554432) 7))))
      (Nat.xor (Nat.land e f) (Nat.land (Nat.xor e 4294967295) g))) k) w0
    let t2 := Nat.add
      (Nat.xor (Nat.xor (Nat.lor (Nat.shiftRight a 2) (Nat.shiftLeft (Nat.mod a 4) 30))
        (Nat.lor (Nat.shiftRight a 13) (Nat.shiftLeft (Nat.mod a 8192) 19)))
        (Nat.lor (Nat.shiftRight a 22) (Nat.shiftLeft (Nat.mod a 4194304) 10)))
      (Nat.xor (Nat.xor (Nat.land a b) (Nat.land a c)) (Nat.land b c))
    let w16 := Nat.mod (Nat.add (Nat.add (Nat.add
      (Nat.xor (Nat.xor (Nat.lor (Nat.shiftRight w14 17) (Nat.shiftLeft (Nat.mod w14 131072) 15))
        (Nat.lor (Nat.shiftRight w14 19) (Nat.shiftLeft (Nat.mod w14 524288) 13)))
        (Nat.shiftRight w14 10)) w9)
      (Nat.xor (Nat.xor (Nat.lor (Nat.shiftRight w1 7) (Nat.shiftLeft (Nat.mod w1 128) 25))
        (Nat.lor (Nat.shiftRight w1 18) (Nat.shiftLeft (Nat.mod w1 262144) 14)))
        (Nat.shiftRight w1 3))) w0) 4294967296
    shaLoop ks w1 w2 w3 w4 w5 w6 w7 w8 w9 w10 w11 w12 w13 w14 w15 w16
      (Nat.mod (Nat.add t1 t2) 4294967296) a b c (Nat.mod (Nat.add d t1) 4294967296) e f g

def compressBlock (hs : List Nat) (block : List Nat) : List Nat :=
  let ws := bytesToWords block
  let s := shaLoop shaK (ws.getD 0 0) (ws.getD 1 0) (ws.getD 2 0) (ws.getD 3 0)
    (ws.getD 4 0) (ws.getD 5 0) (ws.getD 6 0) (ws.getD 7 0) (ws.getD 8 0)
    (ws.getD 9 0) (ws.getD 10 0) (ws.getD 11 0) (ws.getD 12 0) (ws.getD 13 0)
    (ws.getD 14 0) (ws.getD 15 0)
    (hs.getD 0 0) (hs.getD 1 0) (hs.getD 2 0) (hs.getD 3 0)
    (hs.getD 4 0) (hs.getD 5 0) (hs.getD 6 0) (hs.getD 7 0)
  [add32 (hs.getD 0 0) (s.getD 0 0), add32 (hs.getD 1 0) (s.getD 1 0),
   add32 (hs.getD 2 0) (s.getD 2 0), add32 (hs.getD 3 0) (s.getD 3 0),
   add32 (hs.getD 4 0) (s.getD 4 0), add32 (hs.getD 5 0) (s.getD 5 0),
   add32 (hs.getD 6 0) (s.getD 6 0), add32 (hs.getD 7 0) (s.getD 7 0)]

/-- SHA-256 of a byte string. -/
def sha256 (msg : List Nat) : List Nat :=
  ((chunksFuel (padMessage msg).length (padMessage msg)).foldl compressBlock
      shaH0).foldr (fun w acc => toBytesBE 4 w ++ acc) []

/-- UTF-8 encoding of one character (Python `str.encode("utf-8")`). -/
def utf8Char (c : Char) : List Nat :=
  let n := c.toNat
  if n < 128 then [n]
  else if n < 2048 then [192 + n / 64, 128 + n % 64]
  else if n < 65536 then [224 + n / 4096, 128 + (n / 64) % 64, 128 + n % 64]
  else [240 + n / 262144, 128 + (n / 4096) % 64, 128 + (n / 64) % 64, 128 + n % 64]

def utf8Bytes : List Char → List Nat
  | [] => []
  | c :: cs => utf8Char c ++ utf8Bytes cs

/-- `hmac.new(key, msg, hashlib.sha256).digest()`. -/
def hmacSha256 (key msg : List Nat) : List Nat :=
  let k0 := if 64 < key.length then sha256 key else key
  let kp := k0 ++ List.replicate (64 - k0.length) 0
  let inner := sha256 ((kp.map (fun b => b ^^^ 54)) ++ msg)
  sha256 ((kp.map (fun b => b ^^^ 92)) ++ inner)

/-- `SessionStore.SECRET_KEY`. -/
def SECRET_KEY : List Nat :=
  utf8Bytes "graphiti-mcp-secret-key-change-in-production".data

/-- The urlsafe base64 alphabet (Python encodes with the standard alphabet
and then translates `+`→`-`, `/`→`_`; the net effect is this table). -/
def b64Char (n : Nat) : Char :=
  "ABCDEFGHIJKLMNOPQRSTUVWXYZabcdefghijklmnopqrstuvwxyz0123456789-_".data.getD n 'A'

/-- `base64.urlsafe_b64encode(..)...rstrip("=")`: the encoding with padding
already stripped, exactly as `issue_token` emits it. -/
def b64encodeStripped : List Nat → List Char
  | [] => []
  | [a] => [b64Char (a / 4), b64Char ((a % 4) * 16)]
  | [a, b] => [b64Char (a / 4), b64Char ((a % 4) * 16 + b / 16), b64Char ((b % 16) * 4)]
  | a :: b :: c :: rest =>
    b64Char (a / 4) :: b64Char ((a % 4) * 16 + b / 16) ::
      b64Char ((b % 16) * 4 + c / 64) :: b64Char (c % 64) :: b64encodeStripped rest

/-- Decode value of one character under `urlsafe_b64decode` (which maps
`-`→`+` and `_`→`/` before the standard table, so all four forms of the
last two values are accepted); `none` for a character outside the table. -/
def b64Val (c : Char) : Option Nat :=
  let n := c.toNat
  if 65 ≤ n ∧ n ≤ 90 then some (n - 65)
  else if 97 ≤ n ∧ n ≤ 122 then some (n - 97 + 26)
  else if 48 ≤ n ∧ n ≤ 57 then some (n - 48 + 52)
  else if n = 45 then some 62
  else if n = 95 then some 63
  else if n = 43 then some 62
  else if n = 47 then some 63
  else none

/-- CPython's `binascii.a2b_base64` in non-strict mode (the mode
`base64.urlsafe_b64decode` uses): characters outside the table are skipped;
a `=` at quad position ≥ 2 counts towards the padding counter and ends the
data once position plus padding reaches 4 (the rest is ignored), while a
`=` before position 2 is skipped without counting; leftover quad positions
1 (`number of data characters ...`) and 2/3 (`Incorrect padding`) are
errors, both mapped to `none`. -/
def a2bAux : List Char → Nat → Nat → Nat → List Nat → Option (List Nat)
  | [], qp, _, _, acc => if qp = 0 then some acc else none
  | c :: rest, qp, left, pads, acc =>
    if c = '=' then
      if 2 ≤ qp ∧ 4 ≤ qp + (pads + 1) then some acc
      else if 2 ≤ qp then a2bAux rest qp left (pads + 1) acc
      else a2bAux rest qp left pads acc
    else
      match b64Val c with
      | none => a2bAux rest qp left pads acc
      | some v =>
        match qp with
        | 0 => a2bAux rest 1 v 0 acc
        | 1 => a2bAux rest 2 (v % 16) 0 (acc ++ [left * 4 + v / 16])
        | 2 => a2bAux rest 3 (v % 4) 0 (acc ++ [left * 16 + v / 4])
        | _ => a2bAux rest 0 0 0 (acc ++ [left * 64 + v])

/-- `base64.urlsafe_b64decode` on a character string, `none` on error. -/
def urlsafe_b64decode (s : List Char) : Option (List Nat) :=
  a2bAux s 0 0 0 []

/-- The re-padding applied by `verify_token`: `"=" * (4 - len % 4)` — note
that a length divisible by 4 receives four `=` characters. -/
def pad4 (s : List Char) : List Char :=
  s ++ List.replicate (4 - s.length % 4) '='

/-- Python `str.split(".")`. -/
def splitDot : List Char → List (List Char)
  | [] => [[]]
  | c :: rest =>
    if c = '.' then [] :: splitDot rest
    else
      match splitDot rest with
      | [] => [[c]]
      | p :: ps => (c :: p) :: ps

/-- The decoded cursor payload `{"sid": ..., "qh": ..., "iat": ..., "exp": ...}`. -/
structure Payload where
  sid : String
  qh : String
  iat : Nat
  exp : Nat
deriving DecidableEq

/-- Expect a literal byte prefix. -/
def parseLit : List Nat → List Nat → Option (List Nat)
  | [], rest => some rest
  | _ :: _, [] => none
  | l :: ls, b :: bs => if b = l then parseLit ls bs else none

/-- Scan a JSON string body up to the closing quote.  Restricted to plain
printable ASCII without backslash escapes — exactly the strings
`issue_token`'s compact `json.dumps` emits for uuid/hash content; anything
else is rejected (the enclosing `verify_token` maps that to
`INVALID_CURSOR`, as `json.loads`/`decode` errors are in the source). -/
def parseJStr : List Nat → Option (List Char × List Nat)
  | [] => none
  | b :: bs =>
    if b = 34 then some ([], bs)
    else if 32 ≤ b ∧ b < 127 ∧ b ≠ 92 then
      match parseJStr bs with
      | some (cs, rest) => some (Char.ofNat b :: cs, rest)
      | none => none
    else none

def parseDigits : List Nat → Nat → Nat × List Nat
  | b :: bs, acc =>
    if 48 ≤ b ∧ b ≤ 57 then parseDigits bs (acc * 10 + (b - 48))
    else (acc, b :: bs)
  | [], acc => (acc, [])

/-- A decimal natural number (at least one digit). -/
def parseNat (bs : List Nat) : Option (Nat × List Nat) :=
  match bs with
  | b :: _ => if 48 ≤ b ∧ b ≤ 57 then some (parseDigits bs 0) else none
  | [] => none

/-- `json.loads` restricted to the compact payload objects `issue_token`
produces: `{"sid":"…","qh":"…","iat":N,"exp":N}` in that key order, ASCII
and escape-free; every other byte string yields `none`. -/
def parsePayload (bs : List Nat) : Option Payload := do
  let r1 ← parseLit (utf8Bytes "\x7b\"sid\":\"".data) bs
  let (sid, r2) ← parseJStr r1
  let r3 ← parseLit (utf8Bytes ",\"qh\":\"".data) r2
  let (qh, r4) ← parseJStr r3
  let r5 ← parseLit (utf8Bytes ",\"iat\":".data) r4
  let (iat, r6) ← parseNat r5
  let r7 ← parseLit (utf8Bytes ",\"exp\":".data) r6
  let (exp, r8) ← parseNat r7
  let r9 ← parseLit (utf8Bytes "\x7d".data) r8
  if r9 = [] then some ⟨⟨sid⟩, ⟨qh⟩, iat, exp⟩ else none

/-- The compact payload serialization of `issue_token`:
`json.dumps({"sid": sid, "qh": qh, "iat": iat, "exp": exp},
separators=(",", ":"))` for plain-ASCII `sid`/`qh` (uuid4 strings and
`"<root>:<depth>"` hashes contain nothing `json.dumps` escapes). -/
def dumpsPayload (sid qh : String) (iat exp : Nat) : List Char :=
  "\x7b\"sid\":\"".data ++ sid.data ++ "\",\"qh\":\"".data ++ qh.data ++
    "\",\"iat\":".data ++ (Nat.repr iat).data ++ ",\"exp\":".data ++
    (Nat.repr exp).data ++ "\x7d".data

/-- `SessionStore.issue_token`: returns the signed token characters and the
expiry instant.  `time.time()` is the `now` parameter. -/
def issue_token (sid qh : String) (now ttl_seconds : Nat) : List Char × Nat :=
  let exp := now + ttl_seconds
  let payload_bytes := utf8Bytes (dumpsPayload sid qh now exp)
  let payload_b64 := b64encodeStripped payload_bytes
  let signature := hmacSha256 SECRET_KEY (utf8Bytes payload_b64)
  let signature_b64 := b64encodeStripped signature
  (payload_b64 ++ '.' :: signature_b64, exp)

/-- The two failure modes of `verify_token`, distinguishable per the spec. -/
inductive TokenErr where
  | invalidCursor
  | cursorExpired
deriving DecidableEq

/-- `SessionStore.verify_token`: split on every dot, recompute the HMAC of
the payload part, constant-time-compare against the decoded signature part,
then decode and parse the payload and check expiry; every decode/parse
failure is `INVALID_CURSOR`. -/
def verify_token (token : List Char) (now : Nat) : Except TokenErr Payload :=
  match splitDot token with
  | [payload_b64, signature_b64] =>
    let expected := hmacSha256 SECRET_KEY (utf8Bytes payload_b64)
    match urlsafe_b64decode (pad4 signature_b64) with
    | none => .error .invalidCursor
    | some provided =>
      if expected = provided then
        match urlsafe_b64decode (pad4 payload_b64) with
        | none => .error .invalidCursor
        | some payload_bytes =>
          match parsePayload payload_bytes with
          | none => .error .invalidCursor
          | some payload =>
            if payload.exp < now then .error .cursorExpired else .ok payload
      else .error .invalidCursor
  | _ => .error .invalidCursor

/-- The token `issue_token("s", "q")` produces at time 0 with the default
10-minute TTL, as a literal (`c5Token_eq_issue_token` ties it to the
definition). -/
def c5Token : List Char :=
  "eyJzaWQiOiJzIiwicWgiOiJxIiwiaWF0IjowLCJleHAiOjYwMH0.PmHrzCiORfipWAYYxz7BDXEos9t0g8sGh6dHOiSwLu0".data

theorem c5Token_eq_issue_token : c5Token = (issue_token "s" "q" 0 600).1 := by rfl

/-- Flip one bit of the ASCII/code-point value of the character at `i`. -/
def flipBit (s : List Char) (i bit : Nat) : List Char :=
  s.set i (Char.ofNat ((s.getD i 'A').toNat ^^^ (1 <<< bit)))

def isOkB : Except TokenErr Payload → Bool
  | .ok _ => true
  | .error _ => false

/-- One payload-side flip fails verification. -/
def c5FlipFails (i bit : Nat) : Bool :=
  !isOkB (verify_token (flipBit c5Token i bit) 0)

/-- Exhaustive check over the payload part (characters 0-50) and the
separating dot (51): every single-bit flip there makes verification fail. -/
def c5PayloadFlipCheck : Bool :=
  (List.range 52).all fun i => (List.range 8).all fun bit => c5FlipFails i bit

/-- The padding tail of a SHA-256 message of length `prefixLen + m.length`
whose first `prefixLen` bytes have already been consumed. -/
def shaTail (prefixLen : Nat) (m : List Nat) : List Nat :=
  m ++ 128 :: (List.replicate ((119 - (prefixLen + m.length) % 64) % 64) 0 ++
    toBytesBE 8 ((prefixLen + m.length) * 8))

/-- Continue SHA-256 from the mid-state `s0` reached after `prefixLen`
consumed bytes. -/
def sha256_from (s0 : List Nat) (prefixLen : Nat) (m : List Nat) : List Nat :=
  ((chunksFuel (shaTail prefixLen m).length (shaTail prefixLen m)).foldl
      compressBlock s0).foldr (fun w acc => toBytesBE 4 w ++ acc) []

theorem chunksFuel_fuel_irrel :
    ∀ (f1 f2 : Nat) (l : List Nat), l.length ≤ f1 → l.length ≤ f2 →
      chunksFuel f1 l = chunksFuel f2 l := by
  intro f1
  induction f1 with
  | zero =>
    intro f2 l h1 h2
    have hl : l = [] := List.eq_nil_of_length_eq_zero (by omega)
    subst hl
    cases f2 <;> rfl
  | succ f1 ih =>
    intro f2 l h1 h2
    cases l with
    | nil => cases f2 <;> rfl
    | cons b rest =>
      obtain ⟨g, rfl⟩ : ∃ g, f2 = g + 1 := by
        cases f2
        · simp at h2
        · exact ⟨_, rfl⟩
      simp only [chunksFuel]
      congr 1
      apply ih g
      · simp only [List.length_drop, List.length_cons] at h1 ⊢
        omega
      · simp only [List.length_drop, List.length_cons] at h2 ⊢
        omega

theorem chunksFuel_cons_block (k : List Nat) (rest : List Nat)
    (hk : k.length = 64) :
    chunksFuel (k ++ rest).length (k ++ rest) =
      k :: chunksFuel rest.length rest := by
  match hkr : k ++ rest with
  | [] =>
    exfalso
    have := congrArg List.length hkr
    simp [hk] at this
  | b :: l =>
    have hlen : (k ++ rest).length = 64 + rest.length := by simp [hk]
    rw [← hkr]
    have hpos : 0 < (k ++ rest).length := by omega
    obtain ⟨n, hn⟩ : ∃ n, (k ++ rest).length = n + 1 := ⟨(k ++ rest).length - 1, by omega⟩
    rw [hn]
    show chunksFuel (n + 1) (k ++ rest) = _
    have hne : k ++ rest ≠ [] := by
      intro hc
      rw [hc] at hn
      simp at hn
    match hm : k ++ rest, hne with
    | b2 :: l2, _ =>
      simp only [chunksFuel]
      rw [← hm]
      have htake : (k ++ rest).take 64 = k := by
        rw [← hk, List.take_left]
      have hdrop : (k ++ rest).drop 64 = rest := by
        rw [← hk, List.drop_left]
      rw [htake, hdrop]
      congr 1
      apply chunksFuel_fuel_irrel
      · omega
      · exact le_refl _

theorem padMessage_append_block (k m : List Nat) (hk : k.length = 64) :
    padMessage (k ++ m) = k ++ shaTail 64 m := by
  unfold padMessage shaTail
  rw [List.append_assoc]
  congr 2 <;> simp [List.length_append, hk]

theorem sha256_append_block (k m : List Nat) (hk : k.length = 64) :
    sha256 (k ++ m) = sha256_from (compressBlock shaH0 k) 64 m := by
  unfold sha256 sha256_from
  rw [padMessage_append_block k m hk, chunksFuel_cons_block k _ hk, List.foldl_cons]

/-- The zero-padded secret key of `hmac.new(SECRET_KEY, _, sha256)`
(44 key bytes and 20 zeros). -/
def c5KeyPadded : List Nat := SECRET_KEY ++ List.replicate 20 0

/-- The SHA-256 state after absorbing the inner-pad block of the secret. -/
def c5IpadState : List Nat :=
  compressBlock shaH0 (c5KeyPadded.map (fun b => b ^^^ 54))

/-- The SHA-256 state after absorbing the outer-pad block of the secret. -/
def c5OpadState : List Nat :=
  compressBlock shaH0 (c5KeyPadded.map (fun b => b ^^^ 92))

/-- HMAC with the process secret, computed from the precomputed pad states
(two single-block hashes per message instead of four). -/
def hmacFastC5 (m : List Nat) : List Nat :=
  sha256_from c5OpadState 64 (sha256_from c5IpadState 64 m)

theorem hmacFastC5_eq (m : List Nat) :
    hmacFastC5 m = hmacSha256 SECRET_KEY m := by
  have h1 : hmacSha256 SECRET_KEY m =
      sha256 ((c5KeyPadded.map (fun b => b ^^^ 92)) ++
        sha256 ((c5KeyPadded.map (fun b => b ^^^ 54)) ++ m)) := by
    unfold hmacSha256 c5KeyPadded
    rw [if_neg (by decide)]
    rfl
  rw [h1]
  rw [sha256_append_block (List.map (fun b => b ^^^ 54) c5KeyPadded) m (by decide)]
  rw [sha256_append_block (List.map (fun b => b ^^^ 92) c5KeyPadded) _ (by decide)]
  rfl

/-- The payload part (characters before the dot) of `c5Token`. -/
def c5PayloadB64 : List Char :=
  "eyJzaWQiOiJzIiwicWgiOiJxIiwiaWF0IjowLCJleHAiOjYwMH0".data

/-- The signature part (characters after the dot) of `c5Token`. -/
def c5SigB64 : List Char :=
  "PmHrzCiORfipWAYYxz7BDXEos9t0g8sGh6dHOiSwLu0".data

theorem c5Token_parts : c5Token = c5PayloadB64 ++ '.' :: c5SigB64 := by rfl

/-- The signature bytes of `c5Token` (the HMAC of its payload part). -/
def c5SigBytes : List Nat :=
  [62, 97, 235, 204, 40, 142, 69, 248, 169, 88, 6, 24, 199, 62, 193, 13,
   113, 40, 179, 219, 116, 131, 203, 6, 135, 167, 71, 58, 36, 176, 46, 237]

theorem c5SigBytes_eq :
    hmacSha256 SECRET_KEY (utf8Bytes c5PayloadB64) = c5SigBytes := by rfl

theorem c5Sig_decode : urlsafe_b64decode (pad4 c5SigB64) = some c5SigBytes := by rfl

/-- A flip of payload character `i` makes verification fail: either the
flip introduced a dot (the token then splits into three parts), or the
recomputed HMAC of the altered payload no longer matches the signature. -/
def c5PayloadFlipFails (i bit : Nat) : Bool :=
  let p2 := flipBit c5PayloadB64 i bit
  p2.contains '.' || !(hmacFastC5 (utf8Bytes p2) == c5SigBytes)

def c5PayloadSlice (a n : Nat) : Bool :=
  (List.range n).all fun d => (List.range 8).all fun bit => c5PayloadFlipFails (a + d) bit

theorem c5_payload_flips_a : c5PayloadSlice 0 17 = true := by rfl

theorem c5_payload_flips_b : c5PayloadSlice 17 17 = true := by rfl

theorem c5_payload_flips_c : c5PayloadSlice 34 17 = true := by rfl

/-- A flip of signature character `j` still verifies: no dot introduced and
the flipped part decodes (with re-padding) to the original signature bytes. -/
def c5SigFlipVerifies (j bit : Nat) : Bool :=
  let s2 := flipBit c5SigB64 j bit
  !s2.contains '.' && (urlsafe_b64decode (pad4 s2) == some c5SigBytes)

/-- Exhaustive check over the signature part: a flip verifies exactly when
it touches one of the two zero padding bits of the final character. -/
def c5SigCheck : Bool :=
  (List.range 43).all fun j => (List.range 8).all fun bit =>
    c5SigFlipVerifies j bit == decide (j = 42 ∧ (bit = 0 ∨ bit = 1))

theorem c5_sig_check : c5SigCheck = true := by rfl

theorem flipBit_cons_succ (x : Char) (rest : List Char) (i b : Nat) :
    flipBit (x :: rest) (i + 1) b = x :: flipBit rest i b := by
  simp [flipBit, List.getD]

theorem flipBit_append_left (l1 l2 : List Char) (i b : Nat) (h : i < l1.length) :
    flipBit (l1 ++ l2) i b = flipBit l1 i b ++ l2 := by
  induction l1 generalizing i with
  | nil => simp at h
  | cons x rest ih =>
    match i with
    | 0 => simp [flipBit, List.getD]
    | i + 1 =>
      rw [List.cons_append, flipBit_cons_succ, flipBit_cons_succ, ih i (by simpa using h),
        List.cons_append]

theorem flipBit_append_right (l1 l2 : List Char) (j b : Nat) :
    flipBit (l1 ++ l2) (l1.length + j) b = l1 ++ flipBit l2 j b := by
  induction l1 with
  | nil => simp
  | cons x rest ih =>
    rw [List.cons_append, List.length_cons]
    rw [show rest.length + 1 + j = (rest.length + j) + 1 by omega]
    rw [flipBit_cons_succ, ih, List.cons_append]

theorem splitDot_ne_nil : ∀ l : List Char, splitDot l ≠ [] := by
  intro l
  cases l with
  | nil => simp [splitDot]
  | cons c rest =>
    simp only [splitDot]
    split
    · simp
    · match h : splitDot rest with
      | [] => simp
      | p :: ps => simp

theorem splitDot_no_dot : ∀ b : List Char, (∀ c ∈ b, c ≠ '.') → splitDot b = [b] := by
  intro b
  induction b with
  | nil => intro _; rfl
  | cons c rest ih =>
    intro h
    have hc : c ≠ '.' := h c (by simp)
    simp only [splitDot, if_neg hc]
    rw [ih (fun x hx => h x (by simp [hx]))]

theorem splitDot_append (a b : List Char) (ha : ∀ c ∈ a, c ≠ '.') :
    splitDot (a ++ '.' :: b) = a :: splitDot b := by
  induction a with
  | nil => simp [splitDot]
  | cons c rest ih =>
    have hc : c ≠ '.' := ha c (by simp)
    have ih2 := ih (fun x hx => ha x (by simp [hx]))
    simp only [List.cons_append, splitDot, if_neg hc, List.append_eq, ih2]

theorem splitDot_count : ∀ l : List Char, (splitDot l).length = l.count '.' + 1 := by
  intro l
  induction l with
  | nil => rfl
  | cons c rest ih =>
    simp only [splitDot]
    by_cases hc : c = '.'
    · rw [if_pos hc]
      simp only [List.length_cons, ih, List.count_cons]
      simp [hc]
    · rw [if_neg hc]
      match h : splitDot rest with
      | [] => exact absurd h (splitDot_ne_nil rest)
      | p :: ps =>
        rw [h] at ih
        simp only [List.length_cons] at ih ⊢
        rw [List.count_cons]
        simp [hc, ← ih]

/-- The body of `verify_token` once the token has been split into its
payload and signature characters. -/
def verifyParts (p s : List Char) (now : Nat) : Except TokenErr Payload :=
  match urlsafe_b64decode (pad4 s) with
  | none => .error .invalidCursor
  | some provided =>
    if hmacSha256 SECRET_KEY (utf8Bytes p) = provided then
      match urlsafe_b64decode (pad4 p) with
      | none => .error .invalidCursor
      | some payload_bytes =>
        match parsePayload payload_bytes with
        | none => .error .invalidCursor
        | some payload =>
          if payload.exp < now then .error .cursorExpired else .ok payload
    else .error .invalidCursor

theorem verify_token_two_parts (p s : List Char) (now : Nat)
    (hp : ∀ c ∈ p, c ≠ '.') (hs : ∀ c ∈ s, c ≠ '.') :
    verify_token (p ++ '.' :: s) now = verifyParts p s now := by
  unfold verify_token verifyParts
  rw [splitDot_append p s hp, splitDot_no_dot s hs]

theorem verify_token_not_two_parts (t : List Char) (now : Nat)
    (h : t.count '.' ≠ 1) :
    verify_token t now = .error .invalidCursor := by
  have hlen : (splitDot t).length ≠ 2 := by
    rw [splitDot_count]
    omega
  unfold verify_token
  match hs : splitDot t with
  | [] => rfl
  | [a] => rfl
  | [a, b] =>
    rw [hs] at hlen
    simp at hlen
  | a :: b :: c :: rest => rfl

theorem c5p_nodot : ∀ c ∈ c5PayloadB64, c ≠ '.' := by decide

theorem c5s_nodot : ∀ c ∈ c5SigB64, c ≠ '.' := by decide

theorem c5Payload_decode :
    urlsafe_b64decode (pad4 c5PayloadB64) =
      some (utf8Bytes (dumpsPayload "s" "q" 0 600)) := by rfl

theorem c5Payload_parse :
    parsePayload (utf8Bytes (dumpsPayload "s" "q" 0 600)) =
      some ⟨"s", "q", 0, 600⟩ := by rfl

/-- Verification of a token made of the original payload part and an
arbitrary dot-free signature part succeeds — returning the original
payload — exactly when the signature part decodes to the original
signature bytes. -/
theorem c5_verify_sig_side (s2 : List Char) (hs2 : ∀ c ∈ s2, c ≠ '.') :
    verify_token (c5PayloadB64 ++ '.' :: s2) 0 =
      (match urlsafe_b64decode (pad4 s2) with
       | none => Except.error TokenErr.invalidCursor
       | some provided =>
         if c5SigBytes = provided then Except.ok ⟨"s", "q", 0, 600⟩
         else Except.error TokenErr.invalidCursor) := by
  rw [verify_token_two_parts _ _ _ c5p_nodot hs2]
  unfold verifyParts
  rw [c5SigBytes_eq]
  cases hdec : urlsafe_b64decode (pad4 s2) with
  | none => rfl
  | some provided =>
    dsimp only
    by_cases heq : c5SigBytes = provided
    · rw [if_pos heq, if_pos heq, c5Payload_decode]
      dsimp only
      rw [c5Payload_parse]
      rfl
    · rw [if_neg heq, if_neg heq]

theorem all_range8_extract (f : Nat → Nat → Bool) (n : Nat)
    (h : ((List.range n).all fun i => (List.range 8).all fun b => f i b) = true)
    (i b : Nat) (hi : i < n) (hb : b < 8) : f i b = true := by
  have h1 := List.all_eq_true.mp h i (List.mem_range.mpr hi)
  exact List.all_eq_true.mp h1 b (List.mem_range.mpr hb)

theorem c5PayloadB64_len : c5PayloadB64.length = 51 := by rfl

theorem c5SigB64_count : c5SigB64.count '.' = 0 := by decide

theorem contains_dot_cases (l : List Char) :
    l.contains '.' = true ↔ '.' ∈ l := by
  simp [List.contains_iff_exists_mem_beq]

theorem c5_payload_flip_fails_all (i bit : Nat) (hi : i < 51) (hbit : bit < 8) :
    isOkB (verify_token (flipBit c5Token i bit) 0) = false := by
  have hfails : c5PayloadFlipFails i bit = true := by
    rcases Nat.lt_or_ge i 17 with h17 | h17
    · have h := all_range8_extract (fun d b => c5PayloadFlipFails (0 + d) b) 17
        c5_payload_flips_a i bit h17 hbit
      simpa using h
    · rcases Nat.lt_or_ge i 34 with h34 | h34
      · have h := all_range8_extract (fun d b => c5PayloadFlipFails (17 + d) b) 17
          c5_payload_flips_b (i - 17) bit (by omega) hbit
        simp only at h
        rwa [show 17 + (i - 17) = i by omega] at h
      · have h := all_range8_extract (fun d b => c5PayloadFlipFails (34 + d) b) 17
          c5_payload_flips_c (i - 34) bit (by omega) hbit
        simp only at h
        rwa [show 34 + (i - 34) = i by omega] at h
  rw [c5Token_parts, flipBit_append_left _ _ i bit (by rw [c5PayloadB64_len]; omega)]
  unfold c5PayloadFlipFails at hfails
  dsimp only at hfails
  by_cases hcont : (flipBit c5PayloadB64 i bit).contains '.' = true
  · have hmem : '.' ∈ flipBit c5PayloadB64 i bit := (contains_dot_cases _).mp hcont
    have hcount : ((flipBit c5PayloadB64 i bit) ++ '.' :: c5SigB64).count '.' ≠ 1 := by
      rw [List.count_append, List.count_cons]
      have h1 : 0 < (flipBit c5PayloadB64 i bit).count '.' :=
        List.count_pos_iff_mem.mpr hmem
      rw [c5SigB64_count]
      simp
      omega
    rw [verify_token_not_two_parts _ _ hcount]
    rfl
  · have hcont' : (flipBit c5PayloadB64 i bit).contains '.' = false :=
      Bool.not_eq_true _ ▸ (by simpa using hcont)
    rw [hcont'] at hfails
    simp only [Bool.false_or] at hfails
    have hneq : hmacSha256 SECRET_KEY (utf8Bytes (flipBit c5PayloadB64 i bit)) ≠ c5SigBytes := by
      intro hEq
      rw [← hmacFastC5_eq] at hEq
      rw [hEq] at hfails
      simp at hfails
    have hnodot : ∀ c ∈ flipBit c5PayloadB64 i bit, c ≠ '.' := by
      intro c hc hceq
      subst hceq
      rw [(contains_dot_cases _).mpr hc] at hcont'
      cases hcont'
    rw [verify_token_two_parts _ _ _ hnodot c5s_nodot]
    unfold verifyParts
    rw [c5Sig_decode]
    dsimp only
    rw [if_neg hneq]
    rfl

theorem c5_sig_flip_spec (j bit : Nat) (hj : j < 43) (hbit : bit < 8) :
    isOkB (verify_token (c5PayloadB64 ++ '.' :: flipBit c5SigB64 j bit) 0) =
      decide (j = 42 ∧ (bit = 0 ∨ bit = 1)) := by
  have hch : c5SigFlipVerifies j bit = decide (j = 42 ∧ (bit = 0 ∨ bit = 1)) := by
    have h := all_range8_extract
      (fun j b => c5SigFlipVerifies j b == decide (j = 42 ∧ (b = 0 ∨ b = 1)))
      43 c5_sig_check j bit hj hbit
    simpa using h
  unfold c5SigFlipVerifies at hch
  dsimp only at hch
  by_cases hcont : (flipBit c5SigB64 j bit).contains '.' = true
  · have hmem : '.' ∈ flipBit c5SigB64 j bit := (contains_dot_cases _).mp hcont
    have hcount : (c5PayloadB64 ++ '.' :: flipBit c5SigB64 j bit).count '.' ≠ 1 := by
      rw [List.count_append, List.count_cons]
      have h1 : 0 < (flipBit c5SigB64 j bit).count '.' :=
        List.count_pos_iff_mem.mpr hmem
      have h2 : c5PayloadB64.count '.' = 0 := by decide
      rw [h2]
      simp
      omega
    rw [verify_token_not_two_parts _ _ hcount]
    rw [hcont] at hch
    simp only [Bool.not_true, Bool.false_and] at hch
    rw [← hch]
    rfl
  · have hcont' : (flipBit c5SigB64 j bit).contains '.' = false :=
      Bool.not_eq_true _ ▸ (by simpa using hcont)
    have hnodot : ∀ c ∈ flipBit c5SigB64 j bit, c ≠ '.' := by
      intro c hc hceq
      subst hceq
      rw [(contains_dot_cases _).mpr hc] at hcont'
      cases hcont'
    rw [c5_verify_sig_side _ hnodot]
    rw [hcont'] at hch
    simp only [Bool.not_false, Bool.true_and] at hch
    cases hdec : urlsafe_b64decode (pad4 (flipBit c5SigB64 j bit)) with
    | none =>
      rw [hdec] at hch
      dsimp only
      rw [← hch]
      rfl
    | some provided =>
      rw [hdec] at hch
      dsimp only
      by_cases heq : c5SigBytes = provided
      · rw [if_pos heq, ← hch]
        simp [heq, isOkB]
      · rw [if_neg heq, ← hch]
        have hne : (some provided == some c5SigBytes) = false := by
          simp
          intro hc
          exact heq hc.symm
        rw [hne]
        rfl

/-- C5 counterexample: flipping bit 0 of the final character of the
signature part of a token produced by `issue_token` yields a different
token string that `verify_token` still accepts, returning the original
payload — the flip only touches base64 padding bits that the decoder
ignores. -/
theorem verify_token_bitflip_counterexample :
    flipBit c5Token 94 0 ≠ c5Token ∧
    verify_token (flipBit c5Token 94 0) 0 = .ok ⟨"s", "q", 0, 600⟩ ∧
    c5Token = (issue_token "s" "q" 0 600).1 := by
  refine ⟨by decide, by rfl, c5Token_eq_issue_token⟩

/-- C5 amended: for the token `issue_token("s","q")` produces at time 0,
a single-bit flip anywhere in the token (payload part, separator or
signature part) verifies successfully if and only if it is one of the two
flips touching the zero padding bits of the final base64 character of the
signature; every other flip makes `verify_token` fail. -/
theorem verify_token_bitflip_spec (i bit : Nat) (hi : i < 95) (hbit : bit < 8) :
    (isOkB (verify_token (flipBit c5Token i bit) 0) = true) ↔
      (i = 94 ∧ (bit = 0 ∨ bit = 1)) := by
  rcases Nat.lt_or_ge i 51 with h51 | h51
  · rw [c5_payload_flip_fails_all i bit h51 hbit]
    simp
    omega
  · rcases Nat.lt_or_ge i 52 with h52 | h52
    · have hieq : i = 51 := by omega
      subst hieq
      have hflip : flipBit c5Token 51 bit =
          c5PayloadB64 ++ (Char.ofNat ('.'.toNat ^^^ (1 <<< bit))) :: c5SigB64 := by
        rw [c5Token_parts]
        rw [show (51 : Nat) = c5PayloadB64.length + 0 from by rw [c5PayloadB64_len]]
        rw [flipBit_append_right]
        congr 1
      rw [hflip]
      have hnew : Char.ofNat ('.'.toNat ^^^ (1 <<< bit)) ≠ '.' := by
        interval_cases bit <;> decide
      have hcount :
          (c5PayloadB64 ++ (Char.ofNat ('.'.toNat ^^^ (1 <<< bit))) :: c5SigB64).count '.' ≠ 1 := by
        rw [List.count_append, List.count_cons]
        have h2 : c5PayloadB64.count '.' = 0 := by decide
        rw [h2, c5SigB64_count]
        simp
        exact hnew
      rw [verify_token_not_two_parts _ _ hcount]
      simp [isOkB]
    · have hj : i - 52 < 43 := by omega
      have hdecomp : flipBit c5Token i bit =
          c5PayloadB64 ++ '.' :: flipBit c5SigB64 (i - 52) bit := by
        rw [c5Token_parts]
        rw [show c5PayloadB64 ++ '.' :: c5SigB64 = (c5PayloadB64 ++ ['.']) ++ c5SigB64 from by simp]
        nth_rewrite 1 [show i = (c5PayloadB64 ++ ['.']).length + (i - 52) from by
          simp [c5PayloadB64_len]
          omega]
        rw [flipBit_append_right]
        simp
      rw [hdecomp, c5_sig_flip_spec (i - 52) bit hj hbit]
      simp only [decide_eq_true_eq]
      omega

theorem verify_token_bitflip_spec_witness :
    (isOkB (verify_token (flipBit c5Token 94 0) 0) = true) ↔
      ((94 : Nat) = 94 ∧ ((0 : Nat) = 0 ∨ (0 : Nat) = 1)) :=
  verify_token_bitflip_spec 94 0 (by decide) (by decide)

theorem verifyParts_ok_shift (p s : List Char) (n m : Nat) (pl : Payload)
    (h : verifyParts p s n = .ok pl) :
    verifyParts p s m = if pl.exp < m then .error .cursorExpired else .ok pl := by
  unfold verifyParts at h ⊢
  cases hd : urlsafe_b64decode (pad4 s) with
  | none => rw [hd] at h; exact Except.noConfusion h
  | some provided =>
    rw [hd] at h
    dsimp only at h ⊢
    by_cases hsig : hmacSha256 SECRET_KEY (utf8Bytes p) = provided
    · rw [if_pos hsig] at h ⊢
      cases hpd : urlsafe_b64decode (pad4 p) with
      | none => rw [hpd] at h; exact Except.noConfusion h
      | some pb =>
        rw [hpd] at h
        dsimp only at h ⊢
        cases hpp : parsePayload pb with
        | none => rw [hpp] at h; exact Except.noConfusion h
        | some pl2 =>
          rw [hpp] at h
          dsimp only at h ⊢
          by_cases hexp : pl2.exp < n
          · rw [if_pos hexp] at h; exact Except.noConfusion h
          · rw [if_neg hexp] at h
            injection h with h2
            subst h2
            rfl
    · rw [if_neg hsig] at h; exact Except.noConfusion h

/-- A token that verifies to `.ok pl` at one instant verifies at every other
instant too, up to the expiry check: the signature and payload work is
time-independent, only the final `payload.exp < now` test looks at the clock. -/
theorem verify_token_ok_shift (t : List Char) (n m : Nat) (pl : Payload)
    (h : verify_token t n = .ok pl) :
    verify_token t m = if pl.exp < m then .error .cursorExpired else .ok pl := by
  unfold verify_token at h ⊢
  cases hsp : splitDot t with
  | nil => rw [hsp] at h; exact Except.noConfusion h
  | cons a l =>
    cases l with
    | nil => rw [hsp] at h; exact Except.noConfusion h
    | cons b l2 =>
      cases l2 with
      | nil =>
        rw [hsp] at h
        exact verifyParts_ok_shift a b n m pl h
      | cons c l3 => rw [hsp] at h; exact Except.noConfusion h

theorem verify_token_nil (n : Nat) :
    verify_token [] n = .error .invalidCursor := rfl

/-- A session-store operation performed by the pagination wrapper, recorded
so a theorem can state that an error path touches nothing. -/
inductive StoreOp where
  | load (sid : String)
  | save (sid : String) (sess : TraverseSession)
  | del (sid : String)
deriving DecidableEq

/-- The wrapper's exception outcomes (`CursorExpired`, `InvalidCursor`,
`SessionNotFound`, `QueryMismatch`, `ValueError`). -/
inductive WrapperErr where
  | cursorExpired
  | invalidCursor
  | sessionNotFound
  | queryMismatch
  | valueError
deriving DecidableEq

/-- The `response["cursor"]` dict: either a fresh token with its expiry
instant and `has_more = true`, or `\x7b"has_more": false\x7d`. -/
inductive CursorOut where
  | more (token : List Char) (expires_at : Nat)
  | done
deriving DecidableEq

/-- The wrapper's flat response dict (`traverse_wrapper.py` lines 124-156);
the expiry is kept as its unix instant rather than the formatted string. -/
structure WrapperResponse where
  start : String
  nodes : List (String × NodeRec)
  edges : List EdgeFlat
  est_tokens : Nat
  cursor : CursorOut
deriving DecidableEq

/-- The post-advance half of the wrapper (lines 123-158): build the flat
response, then either save the session and issue a fresh 600-second token
(`has_more`) or, when the call came in with a cursor, delete the session. -/
def wrapperFinish (sessions : SessionStoreMap) (now : Nat)
    (cursorUsed : Bool) (session_id : String) (r : AdvanceResult) :
    Except WrapperErr WrapperResponse × SessionStoreMap × List StoreOp :=
  let resp : WrapperResponse :=
    { start := r.page.start.getD r.sess.root_uuid, nodes := r.page.nodes,
      edges := r.page.edges, est_tokens := r.est_tokens, cursor := .done }
  if r.has_more then
    let ti := issue_token session_id r.sess.query_hash now 600
    (.ok { resp with cursor := .more ti.1 ti.2 },
     save_session sessions session_id r.sess, [.save session_id r.sess])
  else if cursorUsed then
    (.ok resp, delete_session sessions session_id, [.del session_id])
  else
    (.ok resp, sessions, [])

/-- `traverse_wrapper.traverse_knowledge_graph_paginated` over the explicit
session store.  `now` is `time.time()`, `newSid` the `uuid.uuid4()` drawn for
a fresh session, and the third component records every store access.  A falsy
cursor (`None` or the empty string) takes the initial-traversal branch; fuel
exhaustion of the underlying BFS loop is `none`. -/
def traverse_knowledge_graph_paginated
    (est : Page → Nat) (limit : Nat) (g : GraphStore) (fuel : Nat)
    (sessions : SessionStoreMap) (now : Nat) (newSid : String)
    (start_node_uuid : Option String) (depth : Int)
    (cursor_token : Option (List Char)) :
    Option (Except WrapperErr WrapperResponse × SessionStoreMap × List StoreOp) :=
  match cursor_token with
  | some (c :: cs) =>
    match verify_token (c :: cs) now with
    | .error .cursorExpired => some (.error .cursorExpired, sessions, [])
    | .error .invalidCursor => some (.error .invalidCursor, sessions, [])
    | .ok payload =>
      match load_session sessions payload.sid with
      | none => some (.error .sessionNotFound, sessions, [.load payload.sid])
      | some sess =>
        if payload.qh = sess.query_hash then
          match advance_bfs est limit g fuel sess with
          | none => none
          | some r => some (wrapperFinish sessions now true payload.sid r)
        else
          some (.error .queryMismatch, sessions, [.load payload.sid])
  | _ =>
    match start_node_uuid with
    | some root =>
      if root = "" then some (.error .valueError, sessions, [])
      else if depth < 0 ∨ 5 < depth then some (.error .valueError, sessions, [])
      else
        match advance_bfs est limit g fuel (new_session root depth.toNat now) with
        | none => none
        | some r => some (wrapperFinish sessions now false newSid r)
    | none => some (.error .valueError, sessions, [])

/-- C4: a well-formed token (one that verifies successfully at some instant)
whose payload carries `exp` strictly below the current time makes
`verify_token` yield `CURSOR_EXPIRED` — a distinct outcome from
`INVALID_CURSOR` — and the continuation request returns that error with the
session store returned untouched and an empty store-operation trace: no
session is read, mutated, saved, or deleted. -/
theorem expired_cursor_untouched
    (est : Page → Nat) (limit : Nat) (g : GraphStore) (fuel : Nat)
    (sessions : SessionStoreMap) (now : Nat) (newSid : String)
    (start_node_uuid : Option String) (depth : Int)
    (token : List Char) (p : Payload) (t0 : Nat)
    (hok : verify_token token t0 = .ok p) (hexp : p.exp < now) :
    verify_token token now = .error .cursorExpired ∧
    traverse_knowledge_graph_paginated est limit g fuel sessions now newSid
        start_node_uuid depth (some token) =
      some (.error .cursorExpired, sessions, []) := by
  have hshift := verify_token_ok_shift token t0 now p hok
  rw [if_pos hexp] at hshift
  refine ⟨hshift, ?_⟩
  cases token with
  | nil => rw [verify_token_nil] at hok; exact Except.noConfusion hok
  | cons c cs =>
    unfold traverse_knowledge_graph_paginated
    dsimp only
    rw [hshift]

theorem expired_cursor_untouched_witness :
    verify_token c5Token 601 = .error .cursorExpired ∧
    traverse_knowledge_graph_paginated estZero 0 c3wStore 1 [] 601 "n"
        none 1 (some c5Token) =
      some (.error .cursorExpired, [], []) :=
  expired_cursor_untouched estZero 0 c3wStore 1 [] 601 "n" none 1
    c5Token ⟨"s", "q", 0, 600⟩ 0 (by rfl) (by decide)

def c8Sess : TraverseSession :=
  { root_uuid := "r", max_depth := 1, query_hash := "zzz" }

/-- C8: on a continuation request whose verified cursor payload carries a
query hash different from the loaded session's stored `query_hash`, the
wrapper yields `QUERY_MISMATCH`, the store comes back unchanged with only the
read in the operation trace — the session is not deleted — and the store
still maps the session id to the unchanged session. -/
theorem query_mismatch_preserves_session
    (est : Page → Nat) (limit : Nat) (g : GraphStore) (fuel : Nat)
    (sessions : SessionStoreMap) (now : Nat) (newSid : String)
    (start_node_uuid : Option String) (depth : Int)
    (token : List Char) (p : Payload) (sess : TraverseSession)
    (hok : verify_token token now = .ok p)
    (hload : load_session sessions p.sid = some sess)
    (hqh : p.qh ≠ sess.query_hash) :
    traverse_knowledge_graph_paginated est limit g fuel sessions now newSid
        start_node_uuid depth (some token) =
      some (.error .queryMismatch, sessions, [.load p.sid]) ∧
    load_session sessions p.sid = some sess := by
  refine ⟨?_, hload⟩
  cases token with
  | nil => rw [verify_token_nil] at hok; exact Except.noConfusion hok
  | cons c cs =>
    unfold traverse_knowledge_graph_paginated
    dsimp only
    rw [hok]
    dsimp only
    rw [hload]
    dsimp only
    rw [if_neg hqh]

theorem query_mismatch_preserves_session_witness :
    traverse_knowledge_graph_paginated estZero 0 c3wStore 1 [("s", c8Sess)] 0 "n"
        none 1 (some c5Token) =
      some (.error .queryMismatch, [("s", c8Sess)], [.load "s"]) ∧
    load_session [("s", c8Sess)] "s" = some c8Sess :=
  query_mismatch_preserves_session estZero 0 c3wStore 1 [("s", c8Sess)] 0 "n"
    none 1 c5Token ⟨"s", "q", 0, 600⟩ c8Sess (by rfl) (by rfl) (by decide)
